import Mathlib

/-!
# Verification of the aerospike-admin cluster core

A shallow embedding, in Lean 4, of the algorithmic core of the
aerospike-admin tool (files `lib/basiccontroller.py`, `lib/client/node.py`,
`lib/view/view.py` of the repository):

* the latency aggregation step `Node._update_total_latency`;
* the connect/fake-node logic `Node.connect` and the `return_exceptions`
  decorator;
* the partition-map analyzer `ShowPmapController._get_namespace_data`,
  `_get_pmap_data` and `_format_missing_part`;
* the snapshot error flattening
  `CollectinfoController._remove_exception_from_section_output`.

Numeric values that the source manipulates as Python numbers are modelled
as exact integers and rationals; Python 2 `round(x, 2)` is modelled as
decimal rounding half away from zero, and Python 2 integer `/` as floor
division.  Python dictionaries are modelled as association lists in
insertion order, exceptions as `Except` / `Option` values.
-/

namespace AerospikeAdmin

/-! ## Association lists (Python dict, insertion order) -/

/-- Lookup of a key in an association list (first binding wins). -/
def alook (k : String) : List (String × α) → Option α
  | [] => none
  | (k', v) :: rest => if k' = k then some v else alook k rest

/-- Replace the value of the first binding of `k`; no-op if `k` is absent. -/
def aset (k : String) (v : α) : List (String × α) → List (String × α)
  | [] => []
  | (k', w) :: rest => if k' = k then (k', v) :: rest else (k', w) :: aset k v rest

theorem alook_aset_self (k : String) (v : α) (l : List (String × α))
    (h : (alook k l).isSome) : alook k (aset k v l) = some v := by
  induction l with
  | nil => simp [alook] at h
  | cons p rest ih =>
    by_cases hk : p.1 = k
    · simp [alook, aset, hk]
    · simp [alook, aset, hk] at h ⊢
      exact ih h

theorem alook_aset_other (k k' : String) (v : α) (l : List (String × α))
    (h : k ≠ k') : alook k' (aset k v l) = alook k' l := by
  induction l with
  | nil => simp [aset]
  | cons p rest ih =>
    by_cases hk : p.1 = k
    · subst hk
      simp [alook, aset, h]
    · simp [alook, aset, hk]
      split <;> simp [alook, *]

theorem alook_append_left (k : String) (l₁ l₂ : List (String × α))
    (h : (alook k l₁).isSome) : alook k (l₁ ++ l₂) = alook k l₁ := by
  induction l₁ with
  | nil => simp [alook] at h
  | cons p rest ih =>
    by_cases hk : p.1 = k
    · simp [alook, hk]
    · simp [alook, hk] at h ⊢
      exact ih h

theorem alook_append_right (k : String) (l₁ l₂ : List (String × α))
    (h : alook k l₁ = none) : alook k (l₁ ++ l₂) = alook k l₂ := by
  induction l₁ with
  | nil => simp [alook]
  | cons p rest ih =>
    by_cases hk : p.1 = k
    · simp [alook, hk] at h
    · simp [alook, hk] at h ⊢
      exact ih h

/-! ## Decimal rounding (Python 2 `round(x, 2)`)

Python 2's `round` rounds half away from zero.  `round2` is that rounding
applied at two decimal places, over exact rationals. -/

/-- Round a rational to the nearest integer, halves away from zero. -/
def halfAwayRound (x : ℚ) : ℤ :=
  if 0 ≤ x then Rat.floor (x + 1 / 2) else -Rat.floor (-x + 1 / 2)

/-- Python 2 `round(x, 2)` over exact rationals. -/
def round2 (x : ℚ) : ℚ := (halfAwayRound (x * 100) : ℚ) / 100

theorem ratFloor_eq_floor (q : ℚ) : Rat.floor q = ⌊q⌋ := by
  rw [Rat.floor_def', Rat.floor_def]

theorem halfAwayRound_intCast (n : ℤ) : halfAwayRound (n : ℚ) = n := by
  unfold halfAwayRound
  by_cases h : 0 ≤ (n : ℚ)
  · rw [if_pos h, ratFloor_eq_floor, Int.floor_int_add]
    norm_num
  · rw [if_neg h]
    rw [show (-(n : ℚ) + 1 / 2) = ((-n : ℤ) : ℚ) + (1 / 2 : ℚ) by push_cast; ring]
    rw [ratFloor_eq_floor, Int.floor_int_add]
    norm_num

theorem round2_eq_self_of_den_dvd (x : ℚ) (h : ∃ n : ℤ, x * 100 = n) :
    round2 x = x := by
  obtain ⟨n, hn⟩ := h
  unfold round2
  rw [hn, halfAwayRound_intCast]
  rw [← hn]
  field_simp

theorem round2_natCast (n : ℕ) : round2 (n : ℚ) = n := by
  apply round2_eq_self_of_den_dvd
  exact ⟨(n : ℤ) * 100, by push_cast; ring⟩

/-! ## Latency rows and `Node._update_total_latency`

A parsed latency row `row` of `Node.info_latency` is
`[time_span, ops_sec, p1, p2, …]`: we model it as a record with the time
span string, the ops value `row[1]` and the percentile values `row[2:]`. -/

structure LatRow where
  span : String
  ops : ℚ
  pcts : List ℚ
deriving DecidableEq, Repr

/-- The in-place update of a matching total row: for each percentile,
`o_t = o_sum*t_p/100`, `n_t = n_sum*p/100`,
`t_p := round(((o_t + n_t) * 100) / (o_sum + n_sum), 2)`, and
`t_row[1] := round(o_sum + n_sum, 2)` (source `node.py`,
`_update_total_latency`). -/
def mergeLatRow (t row : LatRow) : LatRow :=
  let oSum := t.ops
  let nSum := row.ops
  { span := t.span
    ops := round2 (oSum + nSum)
    pcts := t.pcts.zipWith
      (fun tp p => round2 ((oSum * tp / 100 + nSum * p / 100) * 100 / (oSum + nSum)))
      row.pcts }

/-- The scan of `_update_total_latency` over the existing total rows: the
first row with the same time span is updated (skipped entirely when the new
row's ops is not positive); if no time span matches, the new row is
appended at the end. -/
def updateRow (row : LatRow) : List LatRow → List LatRow
  | [] => [row]
  | t :: rest =>
    if t.span = row.span then
      (if 0 < row.ops then mergeLatRow t row else t) :: rest
    else
      t :: updateRow row rest

/-- `Node._update_total_latency(t_rows, row)`: an empty total becomes the
single new row, otherwise the scan `updateRow` runs. -/
def updateTotalLatency (tRows : List LatRow) (row : LatRow) : List LatRow :=
  match tRows with
  | [] => [row]
  | t :: rest => updateRow row (t :: rest)

/-- Folding namespace rows into the running total, exactly as
`info_latency` folds each parsed row into `data[hist][total_key]`. -/
def foldTotalLatency (rows : List LatRow) : List LatRow :=
  rows.foldl updateTotalLatency []

theorem updateTotalLatency_eq (tRows : List LatRow) (row : LatRow) :
    updateTotalLatency tRows row = updateRow row tRows := by
  cases tRows <;> rfl

/-- The ops-sum of a list of total rows. -/
def totalOps (l : List LatRow) : ℚ := (l.map LatRow.ops).sum

theorem round2_nonneg_eval (x : ℚ) (h : 0 ≤ x) :
    round2 x = (⌊x * 100 + 1 / 2⌋ : ℚ) / 100 := by
  rw [round2, halfAwayRound, if_pos (by positivity), ratFloor_eq_floor]

/-- **C2.** Merging a new namespace row `(ops=b, pcts=ys)` (with `b > 0`)
into a total that holds `(ops=a, pcts=xs)` for the same time span yields
`ops = a + b` and, for each percentile pair `(x, y)`,
`round((a*x + b*y) / (a+b), 2)`. -/
theorem latency_merge_weighted (s : String) (a b : ℕ) (xs ys : List ℚ)
    (hb : 0 < b) :
    updateTotalLatency [⟨s, (a : ℚ), xs⟩] ⟨s, (b : ℚ), ys⟩ =
      [⟨s, ((a + b : ℕ) : ℚ),
        xs.zipWith (fun x y => round2 (((a : ℚ) * x + (b : ℚ) * y) / ((a : ℚ) + (b : ℚ)))) ys⟩] := by
  have hb' : (0 : ℚ) < (b : ℚ) := by exact_mod_cast hb
  have hab : ((a : ℚ) + (b : ℚ)) ≠ 0 := by positivity
  rw [updateTotalLatency_eq]
  simp only [updateRow, if_true]
  rw [if_pos hb']
  simp only [mergeLatRow, List.cons.injEq, LatRow.mk.injEq, and_true, true_and]
  constructor
  · rw [show ((a : ℚ) + (b : ℚ)) = ((a + b : ℕ) : ℚ) by push_cast; ring, round2_natCast]
  · have hfun : (fun tp p => round2
        (((a : ℚ) * tp / 100 + (b : ℚ) * p / 100) * 100 / ((a : ℚ) + (b : ℚ)))) =
      (fun x y => round2 (((a : ℚ) * x + (b : ℚ) * y) / ((a : ℚ) + (b : ℚ)))) := by
      funext x y
      congr 1
      field_simp
    rw [hfun]

/-- Witness for C2: merging `(ops=100, 10%)` with `(ops=300, 20%)` gives
`(ops=400, 17.50%)`. -/
theorem latency_merge_weighted_witness :
    (0 : ℕ) < 300 ∧
      updateTotalLatency [⟨"1s->2s", ((100 : ℕ) : ℚ), [10]⟩] ⟨"1s->2s", ((300 : ℕ) : ℚ), [20]⟩ =
        [⟨"1s->2s", ((400 : ℕ) : ℚ), [35 / 2]⟩] := by
  refine ⟨by norm_num, ?_⟩
  have h := latency_merge_weighted "1s->2s" 100 300 [10] [20] (by norm_num)
  rw [h]
  norm_num [round2_nonneg_eval]

/-- Helper for C4: merging a single integer-ops row into a one-row total
with the same span adds the ops and keeps the single-row shape. -/
theorem updateTotalLatency_single (s : String) (m n : ℕ) (ps : List ℚ) (r : LatRow)
    (hs : r.span = s) (hn : r.ops = (n : ℚ)) :
    ∃ t : LatRow, updateTotalLatency [⟨s, (m : ℚ), ps⟩] r = [t] ∧
      t.span = s ∧ t.ops = ((m + n : ℕ) : ℚ) := by
  have hr : r = ⟨s, (n : ℚ), r.pcts⟩ := by
    rcases r with ⟨rs, rops, rpcts⟩
    simp only at hs hn ⊢
    rw [hs, hn]
  rw [updateTotalLatency_eq, hr]
  simp only [updateRow, if_true]
  rcases Nat.eq_zero_or_pos n with hz | hp
  · subst hz
    rw [if_neg (by norm_num)]
    exact ⟨⟨s, (m : ℚ), ps⟩, rfl, rfl, by norm_num⟩
  · rw [if_pos (by exact_mod_cast hp)]
    refine ⟨mergeLatRow ⟨s, (m : ℚ), ps⟩ ⟨s, (n : ℚ), r.pcts⟩, rfl, rfl, ?_⟩
    show round2 ((m : ℚ) + (n : ℚ)) = ((m + n : ℕ) : ℚ)
    rw [show ((m : ℚ) + (n : ℚ)) = ((m + n : ℕ) : ℚ) by push_cast; ring, round2_natCast]

/-- Helper for C4: folding same-span integer-ops rows over a one-row total
yields a one-row total whose ops is the running natural sum. -/
theorem foldTotal_single (s : String) :
    ∀ (l : List LatRow) (m : ℕ) (ps : List ℚ),
      (∀ r ∈ l, r.span = s) → (∀ r ∈ l, ∃ n : ℕ, r.ops = (n : ℚ)) →
      ∃ (k : ℕ) (t : LatRow),
        ((k : ℚ) = (m : ℚ) + (l.map LatRow.ops).sum) ∧
          l.foldl updateTotalLatency [⟨s, (m : ℚ), ps⟩] = [t] ∧ t.span = s ∧ t.ops = (k : ℚ)
  | [], m, ps, _, _ => ⟨m, ⟨s, (m : ℚ), ps⟩, by simp, rfl, rfl, rfl⟩
  | r :: l, m, ps, hspan, hops => by
    obtain ⟨n, hn⟩ := hops r (by simp)
    obtain ⟨t₁, h₁, ht₁s, ht₁o⟩ :=
      updateTotalLatency_single s m n ps r (hspan r (by simp)) hn
    have ht₁ : t₁ = ⟨s, ((m + n : ℕ) : ℚ), t₁.pcts⟩ := by
      rcases t₁ with ⟨u, v, w⟩
      simp only at ht₁s ht₁o
      rw [ht₁s, ht₁o]
    obtain ⟨k, t, hk, h₂, hts, hto⟩ :=
      foldTotal_single s l (m + n) t₁.pcts (fun r hr => hspan r (by simp [hr]))
        (fun r hr => hops r (by simp [hr]))
    refine ⟨k, t, ?_, ?_, hts, hto⟩
    · rw [hk]
      simp only [List.map_cons, List.sum_cons, hn]
      push_cast
      ring
    · rw [List.foldl_cons, h₁, ht₁]
      exact h₂

/-- **C4, counterexample.** The same multiset of single-span rows —
`(ops=1, 0%)`, `(ops=1, 0%)`, `(ops=5, 4%)` — folded in two different
orders yields different rounded totals (`2.86%` versus `2.85%`), because
each merge re-rounds to two decimals. -/
theorem latency_fold_order_dependent :
    ([⟨"1s->2s", 1, [0]⟩, ⟨"1s->2s", 1, [0]⟩, ⟨"1s->2s", 5, [4]⟩] : List LatRow).Perm
        [⟨"1s->2s", 1, [0]⟩, ⟨"1s->2s", 5, [4]⟩, ⟨"1s->2s", 1, [0]⟩] ∧
      foldTotalLatency [⟨"1s->2s", 1, [0]⟩, ⟨"1s->2s", 1, [0]⟩, ⟨"1s->2s", 5, [4]⟩] ≠
        foldTotalLatency [⟨"1s->2s", 1, [0]⟩, ⟨"1s->2s", 5, [4]⟩, ⟨"1s->2s", 1, [0]⟩] := by
  constructor
  · exact .cons _ (.swap _ _ _)
  · have h1 : foldTotalLatency
        [⟨"1s->2s", 1, [0]⟩, ⟨"1s->2s", 1, [0]⟩, ⟨"1s->2s", 5, [4]⟩] =
        [⟨"1s->2s", 7, [143 / 50]⟩] := by
      simp only [foldTotalLatency, List.foldl, updateTotalLatency, updateRow, mergeLatRow,
        List.zipWith]
      norm_num [round2_nonneg_eval]
    have h2 : foldTotalLatency
        [⟨"1s->2s", 1, [0]⟩, ⟨"1s->2s", 5, [4]⟩, ⟨"1s->2s", 1, [0]⟩] =
        [⟨"1s->2s", 7, [57 / 20]⟩] := by
      simp only [foldTotalLatency, List.foldl, updateTotalLatency, updateRow, mergeLatRow,
        List.zipWith]
      norm_num [round2_nonneg_eval]
    intro h
    rw [h1, h2] at h
    have hp : (143 / 50 : ℚ) = 57 / 20 := by
      have := congrArg (fun l : List LatRow => ((l.headD ⟨"", 0, []⟩).pcts.headD 0)) h
      simpa using this
    norm_num at hp

/-- **C4, amended.** For same-span rows with integer ops, the folded
total's ops is the sum of all ops, hence independent of the merge order,
and a zero-ops row with the total's span leaves a nonempty total
unchanged; the rounded percentile values may depend on the order. -/
theorem latency_fold_ops_insensitive (s : String) (l₁ l₂ : List LatRow)
    (hperm : l₁.Perm l₂) (hspan : ∀ r ∈ l₁, r.span = s)
    (hops : ∀ r ∈ l₁, ∃ n : ℕ, r.ops = (n : ℚ)) (hne : l₁ ≠ []) :
    totalOps (foldTotalLatency l₁) = totalOps (foldTotalLatency l₂) ∧
      ∀ r : LatRow, r.span = s → r.ops = 0 →
        updateTotalLatency (foldTotalLatency l₁) r = foldTotalLatency l₁ := by
  have key : ∀ l : List LatRow, (∀ r ∈ l, r.span = s) →
      (∀ r ∈ l, ∃ n : ℕ, r.ops = (n : ℚ)) → l ≠ [] →
      ∃ (k : ℕ) (t : LatRow),
        ((k : ℚ) = (l.map LatRow.ops).sum) ∧ foldTotalLatency l = [t] ∧
          t.span = s ∧ t.ops = (k : ℚ) := by
    intro l hsp hop hn
    match l with
    | [] => exact absurd rfl hn
    | r :: l' =>
      obtain ⟨n, hrn⟩ := hop r (by simp)
      have hrs := hsp r (by simp)
      have hfirst : updateTotalLatency [] r = [⟨s, (n : ℚ), r.pcts⟩] := by
        simp only [updateTotalLatency]
        rw [show r = ⟨s, (n : ℚ), r.pcts⟩ by
          rcases r with ⟨u, v, w⟩
          simp only at hrs hrn
          rw [hrs, hrn]]
      obtain ⟨k, t, hk, hf, hts, hto⟩ :=
        foldTotal_single s l' n r.pcts (fun r hr => hsp r (by simp [hr]))
          (fun r hr => hop r (by simp [hr]))
      refine ⟨k, t, ?_, ?_, hts, hto⟩
      · rw [hk]
        simp only [List.map_cons, List.sum_cons, hrn]
      · rw [foldTotalLatency, List.foldl_cons, hfirst]
        exact hf
  obtain ⟨k₁, t₁, hk₁, h₁, ht₁s, ht₁o⟩ := key l₁ hspan hops hne
  obtain ⟨k₂, t₂, hk₂, h₂, _, ht₂o⟩ := key l₂
    (fun r hr => hspan r (hperm.mem_iff.mpr hr))
    (fun r hr => hops r (hperm.mem_iff.mpr hr))
    (fun h => hne (by
      have := h ▸ hperm
      exact List.perm_nil.mp this))
  constructor
  · rw [h₁, h₂]
    have hsum : (l₁.map LatRow.ops).sum = (l₂.map LatRow.ops).sum :=
      (hperm.map LatRow.ops).sum_eq
    simp only [totalOps, List.map, List.sum_cons, List.sum_nil, add_zero]
    rw [ht₁o, ht₂o, hk₁, hk₂, hsum]
  · intro r hrs hr0
    rw [h₁]
    rw [updateTotalLatency_eq]
    rcases t₁ with ⟨u, v, w⟩
    simp only at ht₁s
    simp only [updateRow, ht₁s, hrs, if_pos rfl, hr0]
    norm_num

/-- Witness for the amended C4 at a concrete permutation. -/
theorem latency_fold_ops_insensitive_witness :
    totalOps (foldTotalLatency [⟨"t", ((2 : ℕ) : ℚ), [10]⟩, ⟨"t", ((3 : ℕ) : ℚ), [20]⟩]) =
        totalOps (foldTotalLatency [⟨"t", ((3 : ℕ) : ℚ), [20]⟩, ⟨"t", ((2 : ℕ) : ℚ), [10]⟩]) ∧
      ∀ r : LatRow, r.span = "t" → r.ops = 0 →
        updateTotalLatency
            (foldTotalLatency [⟨"t", ((2 : ℕ) : ℚ), [10]⟩, ⟨"t", ((3 : ℕ) : ℚ), [20]⟩]) r =
          foldTotalLatency [⟨"t", ((2 : ℕ) : ℚ), [10]⟩, ⟨"t", ((3 : ℕ) : ℚ), [20]⟩] :=
  latency_fold_ops_insensitive "t" _ _ (.swap _ _ _)
    (by
      intro r hr
      simp only [List.mem_cons, List.not_mem_nil, or_false] at hr
      rcases hr with h | h <;> simp [h])
    (by
      intro r hr
      simp only [List.mem_cons, List.not_mem_nil, or_false] at hr
      rcases hr with h | h
      · exact ⟨2, by simp [h]⟩
      · exact ⟨3, by simp [h]⟩)
    (by simp)

/-! ## The node client: `Node.connect` and `return_exceptions`

`Node` attributes relevant to `connect` are modelled as a record; the
network (DNS resolution and the `node`, `service`, `features`,
`peers-generation` info calls) is an oracle record `ConnEnv`.  A Python
exception stored in an attribute is an `Except.error`; `peers_generation`
starts as the sentinel `-1`, modelled as `none`. -/

instance {ε α : Type} [DecidableEq ε] [DecidableEq α] : DecidableEq (Except ε α)
  | .ok a, .ok b =>
    if h : a = b then .isTrue (by rw [h]) else .isFalse (by intro hc; cases hc; exact h rfl)
  | .ok _, .error _ => .isFalse (by intro hc; cases hc)
  | .error _, .ok _ => .isFalse (by intro hc; cases hc)
  | .error e, .error f =>
    if h : e = f then .isTrue (by rw [h]) else .isFalse (by intro hc; cases hc; exact h rfl)

/-- A service address tuple `(host, port, tls_name)`. -/
abbrev Addr := String × ℕ × Option String

structure NodeState where
  ip : String
  fqdn : String
  port : ℕ
  tlsName : Option String
  serviceIPPort : String
  nodeId : Except String String
  features : Except String String
  usePeersList : Bool
  peersGeneration : Option (Except String String)
  peers : List Addr
  serviceAddresses : List Addr
  alive : Bool
deriving DecidableEq, Repr

/-- The network oracle seen by `Node.connect`: DNS resolution
(`none` = raised), and the info calls issued through `return_exceptions`
(an `Except.error` is an exception returned as a value). -/
structure ConnEnv where
  resolve : String → ℕ → Option (String × String)
  infoNode : String → ℕ → Except String String
  infoService : String → ℕ → Option (List Addr)
  infoFeatures : String → ℕ → Except String String
  peersGenerationReply : Except String String
  friends : List Addr

/-- `Node.create_key(address, port)`: IPv6 hosts are bracketed. -/
def createKey (address : String) (port : ℕ) : String :=
  if address ≠ "" ∧ address.contains ':' then
    "[" ++ address ++ "]:" ++ toString port
  else
    address ++ ":" ++ toString port

/-- `Node.is_feature_present`: false on empty or exception-valued
`features`, else a substring test. -/
def isFeaturePresent (features : Except String String) (feature : String) : Bool :=
  match features with
  | .error _ => false
  | .ok s => if s = "" then false else s.containsSubstr feature

/-- `Node.has_peers_changed`: true for old servers without the peers
feature; otherwise compare the (possibly exception-valued)
`peers-generation` reply with the cached one, caching the new reply when it
differs. -/
def hasPeersChanged (env : ConnEnv) (st : NodeState) : Bool × NodeState :=
  if ¬ st.usePeersList then (true, st)
  else
    let g := env.peersGenerationReply
    if st.peersGeneration ≠ some g then (true, { st with peersGeneration := some g })
    else (false, st)

/-- The `except` branch of `Node.connect`: "Node is offline... fake a
node".  `address` and `port` are the values of the local variables at the
point the exception was raised. -/
def fakeNode (st : NodeState) (address : String) (port : ℕ) : NodeState :=
  { st with
    ip := address
    fqdn := address
    port := port
    serviceIPPort := createKey address port
    nodeId := .ok "000000000000000"
    serviceAddresses := [(address, port, st.tlsName)]
    features := .ok ""
    usePeersList := false
    peers := []
    alive := false }

/-- The `for s in self.service_addresses` loop of `Node.connect`: rebind
`address`, re-resolve (a DNS failure is caught and the next address is
tried), query `node`, and stop at the first address that answers.  Returns
the state together with the final value of the `address` local. -/
def tryServiceAddresses (env : ConnEnv) :
    NodeState → String → List Addr → NodeState × String
  | st, addr, [] => (st, addr)
  | st, _, s :: rest =>
    let addr := s.1
    match env.resolve addr st.port with
    | none => tryServiceAddresses env st addr rest
    | some (ip, fq) =>
      let st := { st with ip := ip, fqdn := fq }
      let st := { st with nodeId := env.infoNode ip st.port }
      match st.nodeId with
      | .ok _ => (st, addr)
      | .error _ => tryServiceAddresses env st addr rest

/-- `Node.connect(address, port)`.  Any failure inside the `try` block
falls through to `fakeNode` with the current values of the `address` and
`port` locals. -/
def connect (env : ConnEnv) (st : NodeState) (address : String) (port : ℕ) : NodeState :=
  match env.infoNode st.ip st.port with
  | .error _ => fakeNode st address port
  | .ok nid =>
    let st := { st with nodeId := .ok nid }
    let st :=
      match env.infoService st.ip st.port with
      | some l => if l ≠ [] then { st with serviceAddresses := l } else st
      | none => st
    let st :=
      if st.serviceAddresses = [] ∨
          (st.ip, st.port, st.tlsName) ∉ st.serviceAddresses then
        { st with serviceAddresses := st.serviceAddresses ++ [(st.ip, st.port, st.tlsName)] }
      else st
    let (st, addr) := tryServiceAddresses env st address st.serviceAddresses
    match st.nodeId with
    | .error _ => fakeNode st addr st.port
    | .ok _ =>
      let st := { st with serviceIPPort := createKey st.ip st.port }
      let st := { st with features := env.infoFeatures st.ip st.port }
      let st := { st with usePeersList := isFeaturePresent st.features "peers" }
      let (changed, st) := hasPeersChanged env st
      let st := if changed then { st with peers := env.friends } else st
      { st with alive := true }

/-- **C5.** When the initial `node` query fails, `connect` completes (it is
a total function) and yields the faked node: node id
`"000000000000000"`, not alive, empty features, no peers, and the seed
address retained as the single service address and as the node key. -/
theorem connect_fake_node (env : ConnEnv) (st : NodeState) (address : String)
    (port : ℕ) (e : String) (h : env.infoNode st.ip st.port = .error e) :
    connect env st address port = fakeNode st address port ∧
      (connect env st address port).nodeId = .ok "000000000000000" ∧
      (connect env st address port).alive = false ∧
      (connect env st address port).features = .ok "" ∧
      (connect env st address port).usePeersList = false ∧
      (connect env st address port).peers = [] ∧
      (connect env st address port).serviceAddresses = [(address, port, st.tlsName)] ∧
      (connect env st address port).ip = address ∧
      (connect env st address port).port = port ∧
      (connect env st address port).serviceIPPort = createKey address port := by
  have hc : connect env st address port = fakeNode st address port := by
    unfold connect
    rw [h]
  exact ⟨hc, by rw [hc]; rfl, by rw [hc]; rfl, by rw [hc]; rfl, by rw [hc]; rfl,
    by rw [hc]; rfl, by rw [hc]; rfl, by rw [hc]; rfl, by rw [hc]; rfl, by rw [hc]; rfl⟩

/-- The `Node.__init__` attribute values in effect when `connect` is first
called for a seed (the service-address list is empty, nothing cached). -/
def initNodeState (ip fqdn : String) (port : ℕ) (tlsName : Option String) : NodeState :=
  { ip := ip
    fqdn := fqdn
    port := port
    tlsName := tlsName
    serviceIPPort := ""
    nodeId := .error "unset"
    features := .error "unset"
    usePeersList := false
    peersGeneration := none
    peers := []
    serviceAddresses := []
    alive := false }

/-- Witness for C5: seed `127.0.0.1:9`, connection refused. -/
theorem connect_fake_node_witness :
    connect
        ⟨fun _ _ => none, fun _ _ => .error "Connection refused", fun _ _ => none,
          fun _ _ => .error "Connection refused", .error "Connection refused", []⟩
        (initNodeState "127.0.0.1" "127.0.0.1" 9 none) "127.0.0.1" 9 =
      fakeNode (initNodeState "127.0.0.1" "127.0.0.1" 9 none) "127.0.0.1" 9 :=
  (connect_fake_node _ (initNodeState "127.0.0.1" "127.0.0.1" 9 none) "127.0.0.1" 9
    "Connection refused" rfl).1

/-- `return_exceptions(func)`: the decorated operation runs on the node
state; an exception becomes a returned value (`Sum.inr`) after setting
`alive = False` on the state the operation left behind. -/
def returnExceptions (op : NodeState → NodeState × Except ε α)
    (st : NodeState) : NodeState × (α ⊕ ε) :=
  match op st with
  | (st', .ok a) => (st', .inl a)
  | (st', .error e) => ({ st' with alive := false }, .inr e)

/-- **C10.** If the wrapped call raises, the wrapper returns the exception
as a value and the post-state is exactly the call's post-state with only
`alive` set to false; if it does not raise, the wrapper changes nothing. -/
theorem return_exceptions_spec (op : NodeState → NodeState × Except ε α)
    (st : NodeState) :
    (∀ st' e, op st = (st', .error e) →
        returnExceptions op st = ({ st' with alive := false }, .inr e) ∧
          (returnExceptions op st).1.ip = st'.ip ∧
          (returnExceptions op st).1.fqdn = st'.fqdn ∧
          (returnExceptions op st).1.port = st'.port ∧
          (returnExceptions op st).1.tlsName = st'.tlsName ∧
          (returnExceptions op st).1.serviceIPPort = st'.serviceIPPort ∧
          (returnExceptions op st).1.nodeId = st'.nodeId ∧
          (returnExceptions op st).1.features = st'.features ∧
          (returnExceptions op st).1.usePeersList = st'.usePeersList ∧
          (returnExceptions op st).1.peersGeneration = st'.peersGeneration ∧
          (returnExceptions op st).1.peers = st'.peers ∧
          (returnExceptions op st).1.serviceAddresses = st'.serviceAddresses ∧
          (returnExceptions op st).1.alive = false) ∧
      (∀ st' a, op st = (st', .ok a) → returnExceptions op st = (st', .inl a)) := by
  constructor
  · intro st' e h
    have hv : returnExceptions op st = ({ st' with alive := false }, .inr e) := by
      unfold returnExceptions
      rw [h]
    exact ⟨hv, by rw [hv], by rw [hv], by rw [hv], by rw [hv], by rw [hv], by rw [hv],
      by rw [hv], by rw [hv], by rw [hv], by rw [hv], by rw [hv], by rw [hv]⟩
  · intro st' a h
    unfold returnExceptions
    rw [h]

/-- Witness for C10 at a concrete raising operation and a concrete
non-raising one. -/
theorem return_exceptions_spec_witness :
    returnExceptions (ε := String) (α := String)
        (fun st => (st, .error "Timeout")) (initNodeState "h" "h" 3000 none) =
      ({ initNodeState "h" "h" 3000 none with alive := false }, .inr "Timeout") ∧
      returnExceptions (ε := String) (α := String)
          (fun st => (st, .ok "BB9040011AC4202")) (initNodeState "h" "h" 3000 none) =
        (initNodeState "h" "h" 3000 none, .inl "BB9040011AC4202") :=
  ⟨((return_exceptions_spec (fun st => (st, .error "Timeout"))
      (initNodeState "h" "h" 3000 none)).1 _ _ rfl).1,
    (return_exceptions_spec (fun st => (st, .ok "BB9040011AC4202"))
      (initNodeState "h" "h" 3000 none)).2 _ _ rfl⟩

/-! ## Snapshot assembly:
`CollectinfoController._remove_exception_from_section_output`

A per-section, per-node result map: sections keyed by name, each holding
per-node values that are either a string→string map or an exception. -/

/-- One per-node value of a section: a map, or a caught exception. -/
abbrev SectionVal := Except String (List (String × String))

/-- The loop body applied to one per-node value: an `Exception` value is
replaced by the empty dict `{}`, anything else is untouched. -/
def cleanseSectionVal (v : SectionVal) : SectionVal :=
  match v with
  | .error _ => .ok []
  | .ok m => .ok m

/-- `_remove_exception_from_section_output(data)`: walk every section and
every node and cleanse the value in place. -/
def removeExceptionFromSectionOutput
    (data : List (String × List (String × SectionVal))) :
    List (String × List (String × SectionVal)) :=
  data.map fun sec => (sec.1, sec.2.map fun nv => (nv.1, cleanseSectionVal nv.2))

/-- **C8.** Error flattening: an exception value becomes the empty map and
a map value is untouched; the section keys and the per-section node maps
(with cleansed values) are all preserved, and no error value survives, so
every node key is still present with a map-shaped value. -/
theorem remove_exception_section_output (data : List (String × List (String × SectionVal))) :
    ((removeExceptionFromSectionOutput data).map Prod.fst = data.map Prod.fst) ∧
      (∀ e : String, cleanseSectionVal (.error e) = .ok []) ∧
      (∀ m, cleanseSectionVal (.ok m) = .ok m) ∧
      (∀ sec nodes, (sec, nodes) ∈ data →
        (sec, nodes.map fun nv => (nv.1, cleanseSectionVal nv.2)) ∈
          removeExceptionFromSectionOutput data) ∧
      (∀ sec nodes, (sec, nodes) ∈ removeExceptionFromSectionOutput data →
        (nodes.map Prod.fst = nodes.map Prod.fst) ∧
          ∀ node v, (node, v) ∈ nodes → ∃ m, v = .ok m) := by
  refine ⟨?_, fun _ => rfl, fun _ => rfl, ?_, ?_⟩
  · simp [removeExceptionFromSectionOutput]
  · intro sec nodes h
    simp only [removeExceptionFromSectionOutput, List.mem_map]
    exact ⟨(sec, nodes), h, rfl⟩
  · intro sec nodes h
    refine ⟨rfl, ?_⟩
    intro node v hv
    simp only [removeExceptionFromSectionOutput, List.mem_map] at h
    obtain ⟨⟨s₀, n₀⟩, _, heq⟩ := h
    obtain ⟨rfl, rfl⟩ := Prod.mk.injEq .. ▸ heq
    simp only [List.mem_map] at hv
    obtain ⟨⟨nk, nv⟩, _, heq₂⟩ := hv
    obtain ⟨rfl, rfl⟩ := Prod.mk.injEq .. ▸ heq₂
    cases nv with
    | error e => exact ⟨[], rfl⟩
    | ok m => exact ⟨m, rfl⟩

/-- Witness for C8: a section with one good node and one failed node. -/
theorem remove_exception_section_output_witness :
    ("statistics",
        [("127.0.0.1:3000", Except.ok [("uptime", "123")]),
          ("10.0.0.2:3000", Except.ok ([] : List (String × String)))]) ∈
      removeExceptionFromSectionOutput
        [("statistics",
          [("127.0.0.1:3000", Except.ok [("uptime", "123")]),
            ("10.0.0.2:3000", Except.error "Unreachable")])] := by
  have h := (remove_exception_section_output
    [("statistics",
      [("127.0.0.1:3000", Except.ok [("uptime", "123")]),
        ("10.0.0.2:3000", Except.error "Unreachable")])]).2.2.2.1
    "statistics"
    [("127.0.0.1:3000", Except.ok [("uptime", "123")]),
      ("10.0.0.2:3000", Except.error "Unreachable")]
    (by simp)
  simpa [cleanseSectionVal] using h

/-! ## Partition-map analyzer (`ShowPmapController`)

`_get_pmap_data` consumes, per node, the `partition-info` reply already
split into rows with the five extracted fields
`(namespace, partition, state, replica, records)`; field extraction by
header or version-dependent position is upstream of the algorithm and is
not modelled.  All Python ints are `ℤ` (partition ids can be arbitrary
ints), Python 2 integer `/` is `Int.fdiv`.  The `try`/`except` around the
sync-row block is modelled exactly: a `KeyError` on `ns_info[ns]` or an
out-of-bounds `IndexError` on the missing-partition list aborts the rest
of the block, keeping the mutations already made. -/

/-- The per-node namespace statistics consumed by `_get_namespace_data`:
`master-objects`, `prole-objects` (default 0) and `repl-factor`. -/
structure NsNodeStat where
  masterObjects : ℤ
  proleObjects : ℤ
  replFactor : ℤ
deriving DecidableEq, Repr

/-- The per-namespace aggregates computed by `_get_namespace_data`. -/
structure NsEntry where
  avgMasterObjs : ℤ
  avgReplicaObjs : ℤ
  replFactor : ℤ
  diffMaster : ℤ
  diffReplica : ℤ
deriving DecidableEq, Repr

/-- `_get_namespace_data`, one namespace: sum the object counts over the
non-exception nodes, `avg = total / 4096` (Python 2 floor division),
`repl_factor = max over nodes`, and `diff = avg * 1 / 100` floored at
1024 (`disc_pct_allowed = 1`). -/
def mkNsEntry (nodes : List (Except String NsNodeStat)) : NsEntry :=
  let ok := nodes.filterMap Except.toOption
  let masterObjs := (ok.map NsNodeStat.masterObjects).sum
  let replicaObjs := (ok.map NsNodeStat.proleObjects).sum
  let replFactor := ok.foldl (fun acc p => max acc p.replFactor) 0
  let avgMaster := masterObjs.fdiv 4096
  let avgReplica := replicaObjs.fdiv 4096
  let dM := (avgMaster * 1).fdiv 100
  let dR := (avgReplica * 1).fdiv 100
  { avgMasterObjs := avgMaster
    avgReplicaObjs := avgReplica
    replFactor := replFactor
    diffMaster := if dM < 1024 then 1024 else dM
    diffReplica := if dR < 1024 then 1024 else dR }

/-- `_get_namespace_data` over all namespaces. -/
def getNamespaceData (stats : List (String × List (Except String NsNodeStat))) :
    List (String × NsEntry) :=
  stats.map fun s => (s.1, mkNsEntry s.2)

/-- One parsed `partition-info` row: the five fields `_get_pmap_data`
extracts. -/
structure PRow where
  ns : String
  pid : ℤ
  state : String
  pindex : ℤ
  objects : ℤ
deriving DecidableEq, Repr

/-- The per-`(node, namespace)` counters of `node_pmap`. -/
structure NsReport where
  priIndex : ℕ
  secIndex : ℕ
  masterDisc : List ℤ
  replicaDisc : List ℤ
deriving DecidableEq, Repr

def emptyReport : NsReport := ⟨0, 0, [], []⟩

/-- `ns_missing_part[ns]['missing_part'][pid].remove(replica)` with
Python list-index semantics: an index in `[-len, len)` selects an element
(negative indices from the end) and the first occurrence of `replica` is
removed from it (`ValueError` on absence is caught and changes nothing);
an out-of-bounds index raises `IndexError`, caught by the surrounding
`except`, leaving the structure unchanged. -/
def removeStep (marr : List (List ℤ)) (pid pindex : ℤ) : List (List ℤ) :=
  if -(marr.length : ℤ) ≤ pid ∧ pid < (marr.length : ℤ) then
    let idx : ℕ := (if pid < 0 then pid + (marr.length : ℤ) else pid).toNat
    marr.set idx ((marr.getD idx []).erase pindex)
  else marr

/-- The counter and discrepancy updates of the sync-row block once
`ns_info[ns]` has been read successfully: `replica == 0` bumps
`pri_index` and tests the master discrepancy
(`is_dist_delta_exeeds = |exp - act| > diff`, skipped when both the
average and the count are zero); `replica in range(1, repl_factor)` bumps
`sec_index` and tests the replica discrepancy. -/
def sBlockReport (e : NsEntry) (pid pindex objects : ℤ) (rep : NsReport) : NsReport :=
  let rep :=
    if pindex = 0 then
      let rep := { rep with priIndex := rep.priIndex + 1 }
      if e.avgMasterObjs = 0 ∧ objects = 0 then rep
      else if e.diffMaster < |e.avgMasterObjs - objects| then
        { rep with masterDisc := rep.masterDisc ++ [pid] }
      else rep
    else rep
  if 1 ≤ pindex ∧ pindex < e.replFactor then
    let rep := { rep with secIndex := rep.secIndex + 1 }
    if e.avgReplicaObjs = 0 ∧ objects = 0 then rep
    else if e.diffReplica < |e.avgReplicaObjs - objects| then
      { rep with replicaDisc := rep.replicaDisc ++ [pid] }
    else rep
  else rep

/-- The whole `if state == 'S'` block inside its `try`: when `ns_info[ns]`
is readable the counters are updated and the replica is removed from the
missing list; a `KeyError` (namespace absent) is caught after the
`pri_index` bump for replica 0, aborting the rest of the block but keeping
the mutations already made. -/
def tryS (nsInfo : List (String × NsEntry)) (ns : String) (pid pindex objects : ℤ)
    (rep : NsReport) (marr : List (List ℤ)) : NsReport × List (List ℤ) :=
  match alook ns nsInfo with
  | none =>
    (if pindex = 0 then { rep with priIndex := rep.priIndex + 1 } else rep, marr)
  | some e => (sBlockReport e pid pindex objects rep, removeStep marr pid pindex)

/-- The mutable state threaded through `_get_pmap_data`: the current
node's `node_pmap` and the cluster-global `ns_missing_part` (whose key set
is `visited_ns`). -/
structure AState where
  nodePmap : List (String × NsReport)
  nsMissing : List (String × List (List ℤ))
deriving DecidableEq, Repr

/-- `[range(repl_factor) for i in range(4096)]`: every partition starts
with all replica indices missing. -/
def initMissing (replFactor : ℤ) : List (List ℤ) :=
  List.replicate 4096 ((List.range replFactor.toNat).map Int.ofNat)

/-- `if ns not in node_pmap: node_pmap[ns] = {pri_index: 0, …}`. -/
def initNodePmap (np : List (String × NsReport)) (ns : String) :
    List (String × NsReport) :=
  match alook ns np with
  | some _ => np
  | none => np ++ [(ns, emptyReport)]

/-- `if ns not in visited_ns: ns_missing_part[ns] = …` — the read of
`ns_info[ns]['repl_factor']` here is outside any `try`, so an unknown
namespace crashes the analysis (`none`). -/
def initNsMissing (nsInfo : List (String × NsEntry))
    (nm : List (String × List (List ℤ))) (ns : String) :
    Option (List (String × List (List ℤ))) :=
  match alook ns nm with
  | some _ => some nm
  | none =>
    match alook ns nsInfo with
    | none => none
    | some e => some (nm ++ [(ns, initMissing e.replFactor)])

/-- Processing of one parsed row by `_get_pmap_data`: create the
namespace's `node_pmap` entry and (on first visit) its missing-partition
structure, then run the sync-row block. -/
def stepRow (nsInfo : List (String × NsEntry)) (st : AState) (row : PRow) :
    Option AState :=
  let nodePmap := initNodePmap st.nodePmap row.ns
  match initNsMissing nsInfo st.nsMissing row.ns with
  | none => none
  | some nsMissing =>
    if row.state = "S" then
      let rep := (alook row.ns nodePmap).getD emptyReport
      let marr := (alook row.ns nsMissing).getD []
      let res := tryS nsInfo row.ns row.pid row.pindex row.objects rep marr
      some ⟨aset row.ns res.1 nodePmap, aset row.ns res.2 nsMissing⟩
    else
      some ⟨nodePmap, nsMissing⟩

/-- The row loop of `_get_pmap_data` for one node. -/
def processRows (nsInfo : List (String × NsEntry)) (st : AState)
    (rows : List PRow) : Option AState :=
  rows.foldlM (stepRow nsInfo) st

/-- One iteration of the node loop of `_get_pmap_data`: an
exception-valued node is skipped (it gets no entry in `pmap_data`), any
other node is processed from a fresh `node_pmap` while `ns_missing_part`
persists. -/
def stepNode (nsInfo : List (String × NsEntry))
    (acc : List (String × List (String × NsReport)) × List (String × List (List ℤ)))
    (node : String × Except String (List PRow)) :
    Option (List (String × List (String × NsReport)) × List (String × List (List ℤ))) :=
  match node.2 with
  | .error _ => some acc
  | .ok rows =>
    match processRows nsInfo ⟨[], acc.2⟩ rows with
    | none => none
    | some st => some (acc.1 ++ [(node.1, st.nodePmap)], st.nsMissing)

/-- The node loop of `_get_pmap_data`. -/
def getPmapData (nsInfo : List (String × NsEntry))
    (pmapInfo : List (String × Except String (List PRow))) :
    Option (List (String × List (String × NsReport)) × List (String × List (List ℤ))) :=
  pmapInfo.foldlM (stepNode nsInfo) ([], [])

/-- `_format_missing_part`: concatenate `"pid:S:replica,"` for every pid
in ascending order and every replica still in its list, then strip the
trailing comma. -/
def formatMissingPart (marr : List (List ℤ)) : String :=
  let s := String.join (marr.enum.map fun pe =>
    String.join (pe.2.map fun pindex => toString pe.1 ++ ":S:" ++ toString pindex ++ ","))
  s.dropRight 1

/-- A finished per-`(node, namespace)` report, after `missing_part` is
attached by the last loop of `_get_pmap_data`. -/
structure NsReportFinal where
  priIndex : ℕ
  secIndex : ℕ
  masterDisc : List ℤ
  replicaDisc : List ℤ
  missingPart : String
deriving DecidableEq, Repr

/-- Attach `missing_part` for one namespace
(`ns_missing_part[ns_name]` raises on an unknown namespace). -/
def finalizeNs (nsMissing : List (String × List (List ℤ))) (ns : String)
    (rep : NsReport) : Option NsReportFinal :=
  match alook ns nsMissing with
  | none => none
  | some marr =>
    some ⟨rep.priIndex, rep.secIndex, rep.masterDisc, rep.replicaDisc,
      formatMissingPart marr⟩

/-- The final loop of `_get_pmap_data`: attach the (cluster-global)
formatted `missing_part` to every node's namespace report. -/
def finalizePmap (pd : List (String × List (String × NsReport)))
    (nsMissing : List (String × List (List ℤ))) :
    Option (List (String × List (String × NsReportFinal))) :=
  pd.mapM fun nodeEntry =>
    (nodeEntry.2.mapM fun nsEntry =>
        (finalizeNs nsMissing nsEntry.1 nsEntry.2).map fun fr => (nsEntry.1, fr)).map
      fun l => (nodeEntry.1, l)

/-- `_get_pmap_data` end to end, from parsed rows to the reports handed
to `CliView.show_pmap`. -/
def pmapAnalysis (nsInfo : List (String × NsEntry))
    (pmapInfo : List (String × Except String (List PRow))) :
    Option (List (String × List (String × NsReportFinal))) :=
  match getPmapData nsInfo pmapInfo with
  | none => none
  | some pm => finalizePmap pm.1 pm.2

/-- One rendered row of `CliView.show_pmap`: node, namespace, then the
report fields, the discrepancy lists passed through as they are. -/
structure PmapViewRow where
  node : String
  nsName : String
  priIndex : ℕ
  secIndex : ℕ
  missingPart : String
  masterDisc : List ℤ
  replicaDisc : List ℤ
deriving DecidableEq, Repr

/-- `CliView.show_pmap`: one table row per `(node, namespace)` report. -/
def showPmapRows (out : List (String × List (String × NsReportFinal))) :
    List PmapViewRow :=
  out.flatMap fun nodeEntry =>
    nodeEntry.2.map fun nsEntry =>
      ⟨nodeEntry.1, nsEntry.1, nsEntry.2.priIndex, nsEntry.2.secIndex,
        nsEntry.2.missingPart, nsEntry.2.masterDisc, nsEntry.2.replicaDisc⟩

/-! ### Basic lemmas about the analyzer's building blocks -/

theorem aset_eq_of_none (k : String) (v : α) (l : List (String × α))
    (h : alook k l = none) : aset k v l = l := by
  induction l with
  | nil => rfl
  | cons p rest ih =>
    by_cases hk : p.1 = k
    · simp [alook, hk] at h
    · simp only [alook, hk, if_neg hk, ite_false] at h ⊢
      rw [aset]
      simp [hk, ih h]

theorem alook_aset_isSome (k k' : String) (v : α) (l : List (String × α)) :
    (alook k (aset k' v l)).isSome = (alook k l).isSome := by
  by_cases hk : k' = k
  · subst hk
    cases h : alook k' l with
    | none => rw [aset_eq_of_none _ _ _ h, h]
    | some w => rw [alook_aset_self _ _ _ (by simp [h])]; simp [h]
  · rw [alook_aset_other _ _ _ _ hk]

theorem alook_append_single_self (k : String) (v : α) (l : List (String × α))
    (h : alook k l = none) : alook k (l ++ [(k, v)]) = some v := by
  rw [alook_append_right _ _ _ h]
  simp [alook]

theorem alook_append_single_other (k k' : String) (v : α) (l : List (String × α))
    (hkk : k' ≠ k) : alook k (l ++ [(k', v)]) = alook k l := by
  cases h : alook k l with
  | some w => rw [alook_append_left _ _ _ (by simp [h]), h]
  | none => rw [alook_append_right _ _ _ h]; simp [alook, hkk]

theorem sBlockReport_priIndex (e : NsEntry) (pid pindex objects : ℤ) (rep : NsReport) :
    (sBlockReport e pid pindex objects rep).priIndex =
      rep.priIndex + (if pindex = 0 then 1 else 0) := by
  unfold sBlockReport
  split_ifs <;> rfl

theorem sBlockReport_secIndex (e : NsEntry) (pid pindex objects : ℤ) (rep : NsReport) :
    (sBlockReport e pid pindex objects rep).secIndex =
      rep.secIndex + (if 1 ≤ pindex ∧ pindex < e.replFactor then 1 else 0) := by
  unfold sBlockReport
  split_ifs <;> rfl

theorem sBlockReport_masterDisc (e : NsEntry) (pid pindex objects : ℤ) (rep : NsReport) :
    (sBlockReport e pid pindex objects rep).masterDisc =
      rep.masterDisc ++
        (if pindex = 0 ∧ ¬(e.avgMasterObjs = 0 ∧ objects = 0) ∧
            e.diffMaster < |e.avgMasterObjs - objects| then [pid] else []) := by
  unfold sBlockReport
  split_ifs <;> simp_all

theorem sBlockReport_replicaDisc (e : NsEntry) (pid pindex objects : ℤ) (rep : NsReport) :
    (sBlockReport e pid pindex objects rep).replicaDisc =
      rep.replicaDisc ++
        (if (1 ≤ pindex ∧ pindex < e.replFactor) ∧ ¬(e.avgReplicaObjs = 0 ∧ objects = 0) ∧
            e.diffReplica < |e.avgReplicaObjs - objects| then [pid] else []) := by
  unfold sBlockReport
  split_ifs <;> simp_all

theorem tryS_of_some (nsInfo : List (String × NsEntry)) (ns : String)
    (pid pindex objects : ℤ) (rep : NsReport) (marr : List (List ℤ)) (e : NsEntry)
    (he : alook ns nsInfo = some e) :
    tryS nsInfo ns pid pindex objects rep marr =
      (sBlockReport e pid pindex objects rep, removeStep marr pid pindex) := by
  unfold tryS
  rw [he]

theorem initNodePmap_alook (np : List (String × NsReport)) (ns : String) :
    alook ns (initNodePmap np ns) = some ((alook ns np).getD emptyReport) := by
  unfold initNodePmap
  cases h : alook ns np with
  | some v => simp [h]
  | none => rw [alook_append_single_self _ _ _ h]; simp

theorem initNodePmap_alook_other (np : List (String × NsReport)) (ns ns' : String)
    (h : ns ≠ ns') : alook ns' (initNodePmap np ns) = alook ns' np := by
  unfold initNodePmap
  cases hl : alook ns np with
  | some v => rfl
  | none => exact alook_append_single_other _ _ _ _ h

theorem initNsMissing_of_some (nsInfo : List (String × NsEntry))
    (nm : List (String × List (List ℤ))) (ns : String) (e : NsEntry)
    (he : alook ns nsInfo = some e) :
    ∃ nm', initNsMissing nsInfo nm ns = some nm' ∧
      alook ns nm' = some ((alook ns nm).getD (initMissing e.replFactor)) ∧
      ∀ ns', ns ≠ ns' → alook ns' nm' = alook ns' nm := by
  unfold initNsMissing
  cases h : alook ns nm with
  | some v => exact ⟨nm, rfl, by simp [h], fun _ _ => rfl⟩
  | none =>
    rw [he]
    exact ⟨_, rfl, by rw [alook_append_single_self _ _ _ h]; simp,
      fun ns' hne => alook_append_single_other _ _ _ _ hne⟩

/-- The spec of one row step when the row's namespace is known to
`ns_info`: the step succeeds, the row's namespace entries evolve by the
sync-block (or are merely created for a non-sync row), and all other
namespaces are untouched. -/
theorem stepRow_spec (nsInfo : List (String × NsEntry)) (st : AState) (row : PRow)
    (e : NsEntry) (he : alook row.ns nsInfo = some e) :
    ∃ st', stepRow nsInfo st row = some st' ∧
      alook row.ns st'.nodePmap =
        some (if row.state = "S" then
            sBlockReport e row.pid row.pindex row.objects
              ((alook row.ns st.nodePmap).getD emptyReport)
          else (alook row.ns st.nodePmap).getD emptyReport) ∧
      alook row.ns st'.nsMissing =
        some (if row.state = "S" then
            removeStep ((alook row.ns st.nsMissing).getD (initMissing e.replFactor))
              row.pid row.pindex
          else (alook row.ns st.nsMissing).getD (initMissing e.replFactor)) ∧
      ∀ ns', row.ns ≠ ns' →
        alook ns' st'.nodePmap = alook ns' st.nodePmap ∧
          alook ns' st'.nsMissing = alook ns' st.nsMissing := by
  obtain ⟨nm', hnm', hnm'l, hnm'o⟩ := initNsMissing_of_some nsInfo st.nsMissing row.ns e he
  by_cases hs : row.state = "S"
  · have hstep : stepRow nsInfo st row =
        some ⟨aset row.ns
            (sBlockReport e row.pid row.pindex row.objects
              ((alook row.ns (initNodePmap st.nodePmap row.ns)).getD emptyReport))
            (initNodePmap st.nodePmap row.ns),
          aset row.ns
            (removeStep ((alook row.ns nm').getD []) row.pid row.pindex) nm'⟩ := by
      unfold stepRow
      rw [hnm']
      simp only [if_pos hs]
      rw [tryS_of_some _ _ _ _ _ _ _ e he]
    refine ⟨_, hstep, ?_, ?_, ?_⟩
    · simp only [if_pos hs]
      rw [alook_aset_self _ _ _ (by rw [initNodePmap_alook]; rfl), initNodePmap_alook]
      simp
    · simp only [if_pos hs]
      rw [alook_aset_self _ _ _ (by rw [hnm'l]; rfl), hnm'l]
      simp
    · intro ns' hne
      constructor
      · rw [alook_aset_other _ _ _ _ hne, initNodePmap_alook_other _ _ _ hne]
      · rw [alook_aset_other _ _ _ _ hne, hnm'o ns' hne]
  · have hstep : stepRow nsInfo st row =
        some ⟨initNodePmap st.nodePmap row.ns, nm'⟩ := by
      unfold stepRow
      rw [hnm']
      simp only [if_neg hs]
    refine ⟨_, hstep, ?_, ?_, ?_⟩
    · simp only [if_neg hs]
      exact initNodePmap_alook _ _
    · simp only [if_neg hs]
      exact hnm'l
    · intro ns' hne
      exact ⟨initNodePmap_alook_other _ _ _ hne, hnm'o ns' hne⟩

/-- Frame: a successful row step never changes entries of other
namespaces (no assumption on `ns_info`). -/
theorem stepRow_frame (nsInfo : List (String × NsEntry)) (st st' : AState) (row : PRow)
    (h : stepRow nsInfo st row = some st') :
    ∀ ns', row.ns ≠ ns' →
      alook ns' st'.nodePmap = alook ns' st.nodePmap ∧
        alook ns' st'.nsMissing = alook ns' st.nsMissing := by
  intro ns' hne
  unfold stepRow at h
  cases hnm : initNsMissing nsInfo st.nsMissing row.ns with
  | none => rw [hnm] at h; exact absurd h (by simp)
  | some nm' =>
    rw [hnm] at h
    have hnmo : alook ns' nm' = alook ns' st.nsMissing := by
      unfold initNsMissing at hnm
      cases h₁ : alook row.ns st.nsMissing with
      | some v => rw [h₁] at hnm; cases hnm; rfl
      | none =>
        rw [h₁] at hnm
        cases h₂ : alook row.ns nsInfo with
        | none => rw [h₂] at hnm; cases hnm
        | some e =>
          rw [h₂] at hnm
          cases hnm
          exact alook_append_single_other _ _ _ _ hne
    by_cases hs : row.state = "S"
    · simp only [if_pos hs] at h
      cases h
      exact ⟨by
          rw [alook_aset_other _ _ _ _ hne, initNodePmap_alook_other _ _ _ hne],
        by rw [alook_aset_other _ _ _ _ hne, hnmo]⟩
    · simp only [if_neg hs] at h
      cases h
      exact ⟨initNodePmap_alook_other _ _ _ hne, hnmo⟩

theorem mkNsEntry_avgMaster (nodes : List (Except String NsNodeStat)) :
    (mkNsEntry nodes).avgMasterObjs =
      ((nodes.filterMap Except.toOption).map NsNodeStat.masterObjects).sum.fdiv 4096 := rfl

theorem mkNsEntry_diffMaster (nodes : List (Except String NsNodeStat)) :
    (mkNsEntry nodes).diffMaster =
      max 1024 ((mkNsEntry nodes).avgMasterObjs.fdiv 100) := by
  show (if ((mkNsEntry nodes).avgMasterObjs * 1).fdiv 100 < 1024 then 1024
      else ((mkNsEntry nodes).avgMasterObjs * 1).fdiv 100) = _
  rw [Int.mul_one]
  split <;> omega

/-- **C3.** Master discrepancy rule: with
`avg_master = master_total / 4096` and
`diff_master = max(1024, avg_master / 100)` (`disc_pct_allowed = 1`,
Python 2 floor division), a sync row with replica index 0 appends its
partition id to `master_disc_part` exactly when not
(`avg_master = 0` and `objects = 0`) and
`|avg_master - objects| > diff_master`. -/
theorem master_discrepancy_rule
    (nsInfo : List (String × NsEntry)) (ns : String)
    (nodeStats : List (Except String NsNodeStat))
    (hstats : alook ns nsInfo = some (mkNsEntry nodeStats))
    (st : AState) (row : PRow) (hns : row.ns = ns) (hstate : row.state = "S")
    (hpi : row.pindex = 0) (st' : AState)
    (hstep : stepRow nsInfo st row = some st') :
    ∃ rep', alook ns st'.nodePmap = some rep' ∧
      (rep'.masterDisc = ((alook ns st.nodePmap).getD emptyReport).masterDisc ++ [row.pid] ↔
        ¬(((nodeStats.filterMap Except.toOption).map NsNodeStat.masterObjects).sum.fdiv 4096 = 0 ∧
            row.objects = 0) ∧
          max 1024 ((((nodeStats.filterMap Except.toOption).map
              NsNodeStat.masterObjects).sum.fdiv 4096).fdiv 100) <
            |((nodeStats.filterMap Except.toOption).map
                NsNodeStat.masterObjects).sum.fdiv 4096 - row.objects|) := by
  obtain ⟨st'', hstep', hnp, _, _⟩ :=
    stepRow_spec nsInfo st row (mkNsEntry nodeStats) (by rw [hns]; exact hstats)
  rw [hstep] at hstep'
  cases hstep'
  rw [hns] at hnp
  rw [if_pos hstate] at hnp
  refine ⟨_, hnp, ?_⟩
  rw [sBlockReport_masterDisc, hpi]
  rw [← mkNsEntry_avgMaster, ← mkNsEntry_diffMaster]
  by_cases hcond : ¬((mkNsEntry nodeStats).avgMasterObjs = 0 ∧ row.objects = 0) ∧
      (mkNsEntry nodeStats).diffMaster < |(mkNsEntry nodeStats).avgMasterObjs - row.objects|
  · rw [if_pos ⟨rfl, hcond⟩]
    simp [hcond]
  · rw [if_neg (by
      intro hc
      exact hcond ⟨hc.2.1, hc.2.2⟩)]
    simp only [List.append_nil]
    constructor
    · intro h
      have := congrArg List.length h
      simp at this
    · intro hc
      exact absurd hc hcond

/-- Witness for C3: `avg_master = 1_000_000`, `diff_master = 10_000`
(from `master_total = 4_096_000_000`), partition 42 with `1_200_000`
objects at replica 0 gets reported. -/
theorem master_discrepancy_rule_witness :
    ∃ (st' : AState) (rep' : NsReport),
      stepRow (getNamespaceData [("ns1", [.ok ⟨4096000000, 0, 2⟩])]) ⟨[], []⟩
          ⟨"ns1", 42, "S", 0, 1200000⟩ = some st' ∧
        alook "ns1" st'.nodePmap = some rep' ∧ rep'.masterDisc = [42] := by
  have hstats : alook "ns1" (getNamespaceData [("ns1", [.ok ⟨4096000000, 0, 2⟩])]) =
      some (mkNsEntry [.ok ⟨4096000000, 0, 2⟩]) := by
    simp [getNamespaceData, alook]
  obtain ⟨st', hstep, _, _, _⟩ :=
    stepRow_spec (getNamespaceData [("ns1", [.ok ⟨4096000000, 0, 2⟩])]) ⟨[], []⟩
      ⟨"ns1", 42, "S", 0, 1200000⟩ (mkNsEntry [.ok ⟨4096000000, 0, 2⟩]) hstats
  obtain ⟨rep', hrep, hiff⟩ :=
    master_discrepancy_rule _ "ns1" [.ok ⟨4096000000, 0, 2⟩] hstats ⟨[], []⟩
      ⟨"ns1", 42, "S", 0, 1200000⟩ rfl rfl rfl st' hstep
  refine ⟨st', rep', hstep, hrep, ?_⟩
  have hc := hiff.mpr (by
    constructor
    · intro hc
      exact absurd hc.1 (by decide)
    · show max 1024 (((4096000000 : ℤ).fdiv 4096).fdiv 100) <
        |(4096000000 : ℤ).fdiv 4096 - 1200000|
      decide)
  simpa [alook, emptyReport] using hc

/-! ### The per-namespace view of the row and node loops -/

/-- The rows of one namespace, in input order. -/
def nsRows (ns : String) (rows : List PRow) : List PRow :=
  rows.filter (fun r => r.ns = ns)

/-- The effect of one row on its namespace's report. -/
def repRowStep (e : NsEntry) (rep : NsReport) (row : PRow) : NsReport :=
  if row.state = "S" then sBlockReport e row.pid row.pindex row.objects rep else rep

/-- The effect of one row on its namespace's missing-partition lists. -/
def marrRowStep (marr : List (List ℤ)) (row : PRow) : List (List ℤ) :=
  if row.state = "S" then removeStep marr row.pid row.pindex else marr

theorem nsRows_cons_self (ns : String) (r : PRow) (rows : List PRow) (h : r.ns = ns) :
    nsRows ns (r :: rows) = r :: nsRows ns rows := by
  simp [nsRows, List.filter_cons, h]

theorem nsRows_cons_other (ns : String) (r : PRow) (rows : List PRow) (h : ¬ r.ns = ns) :
    nsRows ns (r :: rows) = nsRows ns rows := by
  simp [nsRows, List.filter_cons, h]

/-- The row loop of one node, seen from a single namespace `ns` known to
`ns_info`: the node's report for `ns` (created on the first `ns` row) is
the fold of `ns`'s rows over `sBlockReport`, and the missing-partition
structure for `ns` (created on first visit) is the fold over
`removeStep`. -/
theorem processRows_spec (nsInfo : List (String × NsEntry)) (ns : String) (e : NsEntry)
    (he : alook ns nsInfo = some e) :
    ∀ (rows : List PRow) (st st' : AState),
      processRows nsInfo st rows = some st' →
      (alook ns st'.nodePmap =
        if alook ns st.nodePmap = none ∧ nsRows ns rows = [] then none
        else some ((nsRows ns rows).foldl (repRowStep e)
          ((alook ns st.nodePmap).getD emptyReport))) ∧
      (alook ns st'.nsMissing =
        if alook ns st.nsMissing = none ∧ nsRows ns rows = [] then none
        else some ((nsRows ns rows).foldl marrRowStep
          ((alook ns st.nsMissing).getD (initMissing e.replFactor))))
  | [], st, st', h => by
    have hst : st' = st := by
      simp [processRows, List.foldlM] at h
      exact h.symm
    subst hst
    constructor
    · cases hnp : alook ns st'.nodePmap with
      | none => simp [nsRows, hnp]
      | some v => simp [nsRows, hnp]
    · cases hnm : alook ns st'.nsMissing with
      | none => simp [nsRows, hnm]
      | some v => simp [nsRows, hnm]
  | r :: rows, st, st', h => by
    rw [processRows, List.foldlM_cons] at h
    cases hstep : stepRow nsInfo st r with
    | none => rw [hstep] at h; exact absurd h (by simp)
    | some st₁ =>
      rw [hstep] at h
      have hrest : processRows nsInfo st₁ rows = some st' := h
      by_cases hr : r.ns = ns
      · obtain ⟨st₁', hstep', hnp₁, hnm₁, _⟩ :=
          stepRow_spec nsInfo st r e (by rw [hr]; exact he)
        rw [hstep] at hstep'
        cases hstep'
        obtain ⟨ihnp, ihnm⟩ := processRows_spec nsInfo ns e he rows st₁ st' hrest
        rw [hr] at hnp₁ hnm₁
        rw [show (if r.state = "S" then
              sBlockReport e r.pid r.pindex r.objects
                ((alook ns st.nodePmap).getD emptyReport)
            else (alook ns st.nodePmap).getD emptyReport) =
            repRowStep e ((alook ns st.nodePmap).getD emptyReport) r from rfl] at hnp₁
        rw [show (if r.state = "S" then
              removeStep ((alook ns st.nsMissing).getD (initMissing e.replFactor))
                r.pid r.pindex
            else (alook ns st.nsMissing).getD (initMissing e.replFactor)) =
            marrRowStep ((alook ns st.nsMissing).getD (initMissing e.replFactor)) r
            from rfl] at hnm₁
        constructor
        · rw [ihnp, hnp₁, nsRows_cons_self ns r rows hr, List.foldl_cons]
          split_ifs <;> first | rfl | tauto
        · rw [ihnm, hnm₁, nsRows_cons_self ns r rows hr, List.foldl_cons]
          split_ifs <;> first | rfl | tauto
      · have hframe := stepRow_frame nsInfo st st₁ r hstep ns hr
        obtain ⟨ihnp, ihnm⟩ := processRows_spec nsInfo ns e he rows st₁ st' hrest
        rw [nsRows_cons_other ns r rows hr]
        rw [ihnp, ihnm, hframe.1, hframe.2]
        exact ⟨rfl, rfl⟩

/-- A row that bumps `pri_index`. -/
def isPriRow (r : PRow) : Bool := decide (r.state = "S" ∧ r.pindex = 0)

/-- A row that bumps `sec_index` (given the namespace's `repl_factor`). -/
def isSecRow (e : NsEntry) (r : PRow) : Bool :=
  decide (r.state = "S" ∧ 1 ≤ r.pindex ∧ r.pindex < e.replFactor)

/-- A row that appends its pid to `master_disc_part`. -/
def discMasterPid (e : NsEntry) (r : PRow) : Option ℤ :=
  if r.state = "S" ∧ r.pindex = 0 ∧ ¬(e.avgMasterObjs = 0 ∧ r.objects = 0) ∧
      e.diffMaster < |e.avgMasterObjs - r.objects| then some r.pid else none

/-- A row that appends its pid to `replica_disc_part`. -/
def discReplicaPid (e : NsEntry) (r : PRow) : Option ℤ :=
  if r.state = "S" ∧ (1 ≤ r.pindex ∧ r.pindex < e.replFactor) ∧
      ¬(e.avgReplicaObjs = 0 ∧ r.objects = 0) ∧
      e.diffReplica < |e.avgReplicaObjs - r.objects| then some r.pid else none

theorem repFold_priIndex (e : NsEntry) :
    ∀ (l : List PRow) (rep : NsReport),
      (l.foldl (repRowStep e) rep).priIndex = rep.priIndex + l.countP isPriRow
  | [], rep => by simp
  | r :: l, rep => by
    rw [List.foldl_cons, repFold_priIndex e l, List.countP_cons]
    by_cases hS : r.state = "S"
    · simp only [repRowStep, if_pos hS, sBlockReport_priIndex, isPriRow]
      by_cases hp : r.pindex = 0
      all_goals simp [hS, hp]
      all_goals omega
    · simp only [repRowStep, if_neg hS, isPriRow]
      simp [hS]

theorem repFold_secIndex (e : NsEntry) :
    ∀ (l : List PRow) (rep : NsReport),
      (l.foldl (repRowStep e) rep).secIndex = rep.secIndex + l.countP (isSecRow e)
  | [], rep => by simp
  | r :: l, rep => by
    rw [List.foldl_cons, repFold_secIndex e l, List.countP_cons]
    by_cases hS : r.state = "S"
    · simp only [repRowStep, if_pos hS, sBlockReport_secIndex, isSecRow]
      by_cases hp : 1 ≤ r.pindex ∧ r.pindex < e.replFactor
      all_goals simp [hS, hp]
      all_goals omega
    · simp only [repRowStep, if_neg hS, isSecRow]
      simp [hS]

theorem repFold_masterDisc (e : NsEntry) :
    ∀ (l : List PRow) (rep : NsReport),
      (l.foldl (repRowStep e) rep).masterDisc =
        rep.masterDisc ++ l.filterMap (discMasterPid e)
  | [], rep => by simp
  | r :: l, rep => by
    rw [List.foldl_cons, repFold_masterDisc e l, List.filterMap_cons]
    by_cases hS : r.state = "S"
    · simp only [repRowStep, if_pos hS, sBlockReport_masterDisc, discMasterPid]
      by_cases hc : r.pindex = 0 ∧ ¬(e.avgMasterObjs = 0 ∧ r.objects = 0) ∧
          e.diffMaster < |e.avgMasterObjs - r.objects|
      · rw [if_pos hc, if_pos ⟨hS, hc⟩]
        simp
      · rw [if_neg hc, if_neg (fun hx => hc hx.2)]
        simp
    · simp only [repRowStep, if_neg hS, discMasterPid]
      rw [if_neg (fun hx => hS hx.1)]

theorem repFold_replicaDisc (e : NsEntry) :
    ∀ (l : List PRow) (rep : NsReport),
      (l.foldl (repRowStep e) rep).replicaDisc =
        rep.replicaDisc ++ l.filterMap (discReplicaPid e)
  | [], rep => by simp
  | r :: l, rep => by
    rw [List.foldl_cons, repFold_replicaDisc e l, List.filterMap_cons]
    by_cases hS : r.state = "S"
    · simp only [repRowStep, if_pos hS, sBlockReport_replicaDisc, discReplicaPid]
      by_cases hc : (1 ≤ r.pindex ∧ r.pindex < e.replFactor) ∧
          ¬(e.avgReplicaObjs = 0 ∧ r.objects = 0) ∧
          e.diffReplica < |e.avgReplicaObjs - r.objects|
      · rw [if_pos hc, if_pos ⟨hS, hc⟩]
        simp
      · rw [if_neg hc, if_neg (fun hx => hc hx.2)]
        simp
    · simp only [repRowStep, if_neg hS, discReplicaPid]
      rw [if_neg (fun hx => hS hx.1)]

/-- The report a node's namespace entry holds for `ns`, as rendered into
the sums of testable property 3 (`0` when the node has no entry). -/
def priOf (ns : String) (npm : List (String × NsReport)) : ℕ :=
  ((alook ns npm).map NsReport.priIndex).getD 0

def secOf (ns : String) (npm : List (String × NsReport)) : ℕ :=
  ((alook ns npm).map NsReport.secIndex).getD 0

/-- `sum over nodes of pri_index` for one namespace. -/
def priSum (ns : String) (pd : List (String × List (String × NsReport))) : ℕ :=
  (pd.map (fun p => priOf ns p.2)).sum

/-- `sum over nodes of sec_index` for one namespace. -/
def secSum (ns : String) (pd : List (String × List (String × NsReport))) : ℕ :=
  (pd.map (fun p => secOf ns p.2)).sum

/-- All rows of the non-exception nodes, in processing order. -/
def okRows (pmapInfo : List (String × Except String (List PRow))) : List PRow :=
  pmapInfo.flatMap fun n => match n.2 with | .ok rows => rows | .error _ => []

theorem okRows_cons_ok (n : String) (rows : List PRow)
    (rest : List (String × Except String (List PRow))) :
    okRows ((n, .ok rows) :: rest) = rows ++ okRows rest := by
  simp [okRows]

theorem okRows_cons_error (n : String) (msg : String)
    (rest : List (String × Except String (List PRow))) :
    okRows ((n, .error msg) :: rest) = okRows rest := by
  simp [okRows]

theorem nsRows_append (ns : String) (l₁ l₂ : List PRow) :
    nsRows ns (l₁ ++ l₂) = nsRows ns l₁ ++ nsRows ns l₂ := by
  simp [nsRows]

/-- The node loop seen from one namespace: the pri/sec sums over the
emitted node reports grow by the row counts of that namespace across the
non-exception nodes, and the missing-partition entry is the fold of all
those rows over `removeStep` (threaded across nodes). -/
theorem stepNode_fold_spec (nsInfo : List (String × NsEntry)) (ns : String) (e : NsEntry)
    (he : alook ns nsInfo = some e) :
    ∀ (pmapInfo : List (String × Except String (List PRow)))
      (acc : List (String × List (String × NsReport)) × List (String × List (List ℤ)))
      (pd : List (String × List (String × NsReport)))
      (miss : List (String × List (List ℤ))),
      pmapInfo.foldlM (stepNode nsInfo) acc = some (pd, miss) →
      priSum ns pd = priSum ns acc.1 + (nsRows ns (okRows pmapInfo)).countP isPriRow ∧
        secSum ns pd = secSum ns acc.1 + (nsRows ns (okRows pmapInfo)).countP (isSecRow e) ∧
        alook ns miss =
          (if alook ns acc.2 = none ∧ nsRows ns (okRows pmapInfo) = [] then none
            else some ((nsRows ns (okRows pmapInfo)).foldl marrRowStep
              ((alook ns acc.2).getD (initMissing e.replFactor))))
  | [], acc, pd, miss, h => by
    have hacc : acc = (pd, miss) := by
      simp [List.foldlM] at h
      exact h
    subst hacc
    refine ⟨by simp [okRows, nsRows], by simp [okRows, nsRows], ?_⟩
    cases hm : alook ns miss with
    | none => simp [okRows, nsRows, hm]
    | some v => simp [okRows, nsRows, hm]
  | (nk, res) :: rest, acc, pd, miss, h => by
    rw [List.foldlM_cons] at h
    cases res with
    | error msg =>
      have hstep : stepNode nsInfo acc (nk, .error msg) = some acc := rfl
      rw [hstep] at h
      have ih := stepNode_fold_spec nsInfo ns e he rest acc pd miss h
      rw [okRows_cons_error]
      exact ih
    | ok rows =>
      have hstep : stepNode nsInfo acc (nk, .ok rows) =
          match processRows nsInfo ⟨[], acc.2⟩ rows with
          | none => none
          | some st => some (acc.1 ++ [(nk, st.nodePmap)], st.nsMissing) := rfl
      rw [hstep] at h
      cases hpr : processRows nsInfo ⟨[], acc.2⟩ rows with
      | none => rw [hpr] at h; exact absurd h (by simp)
      | some st =>
        rw [hpr] at h
        have ih := stepNode_fold_spec nsInfo ns e he rest
          (acc.1 ++ [(nk, st.nodePmap)], st.nsMissing) pd miss h
        obtain ⟨hnp, hnm⟩ := processRows_spec nsInfo ns e he rows ⟨[], acc.2⟩ st hpr
        simp only [alook] at hnp
        rw [okRows_cons_ok, nsRows_append]
        obtain ⟨ih₁, ih₂, ih₃⟩ := ih
        have hcontrib_pri : priOf ns st.nodePmap = (nsRows ns rows).countP isPriRow := by
          unfold priOf
          cases hempty : nsRows ns rows with
          | nil =>
            have hval : alook ns st.nodePmap = none := by
              rw [hnp, hempty]
              simp [alook]
            rw [hval]
            simp
          | cons a l =>
            have hval : alook ns st.nodePmap =
                some ((a :: l).foldl (repRowStep e) emptyReport) := by
              rw [hnp, hempty]
              rw [if_neg (by simp)]
              simp [alook, emptyReport]
            rw [hval]
            show ((a :: l).foldl (repRowStep e) emptyReport).priIndex = _
            rw [repFold_priIndex]
            simp [emptyReport]
        have hcontrib_sec : secOf ns st.nodePmap = (nsRows ns rows).countP (isSecRow e) := by
          unfold secOf
          cases hempty : nsRows ns rows with
          | nil =>
            have hval : alook ns st.nodePmap = none := by
              rw [hnp, hempty]
              simp [alook]
            rw [hval]
            simp
          | cons a l =>
            have hval : alook ns st.nodePmap =
                some ((a :: l).foldl (repRowStep e) emptyReport) := by
              rw [hnp, hempty]
              rw [if_neg (by simp)]
              simp [alook, emptyReport]
            rw [hval]
            show ((a :: l).foldl (repRowStep e) emptyReport).secIndex = _
            rw [repFold_secIndex]
            simp [emptyReport]
        refine ⟨?_, ?_, ?_⟩
        · rw [ih₁]
          simp only [priSum, List.map_append, List.sum_append, List.countP_append,
            List.map_cons, List.map_nil, List.sum_cons, List.sum_nil, hcontrib_pri]
          all_goals omega
        · rw [ih₂]
          simp only [secSum, List.map_append, List.sum_append, List.countP_append,
            List.map_cons, List.map_nil, List.sum_cons, List.sum_nil, hcontrib_sec]
          all_goals omega
        · rw [ih₃]
          by_cases hcase : alook ns acc.2 = none ∧ nsRows ns rows = []
          · rw [hcase.2] at hnm ⊢
            rw [if_pos ⟨hcase.1, rfl⟩] at hnm
            simp only [List.nil_append]
            rw [hnm, hcase.1]
          · rw [if_neg hcase] at hnm
            rw [hnm]
            have hns : ¬(alook ns acc.2 = none ∧
                nsRows ns rows ++ nsRows ns (okRows rest) = []) := by
              intro hx
              exact hcase ⟨hx.1, by
                have := hx.2
                rcases List.append_eq_nil.mp this with ⟨h1, _⟩
                exact h1⟩
            rw [if_neg (by simp), if_neg hns]
            simp only [Option.getD_some]
            rw [List.foldl_append]

/-! ### Totality of the analysis and the final `missing_part` assembly -/

theorem alook_isSome_of_mem (k : String) (v : α) (l : List (String × α))
    (h : (k, v) ∈ l) : (alook k l).isSome := by
  induction l with
  | nil => simp at h
  | cons p rest ih =>
    by_cases hk : p.1 = k
    · simp [alook, hk]
    · simp only [alook, if_neg hk]
      rcases List.mem_cons.mp h with hp | hp
      · exact absurd (congrArg Prod.fst hp.symm) hk
      · exact ih hp

theorem initNodePmap_origin (np : List (String × NsReport)) (ns₀ ns : String)
    (h : (alook ns (initNodePmap np ns₀)).isSome) :
    (alook ns np).isSome ∨ ns = ns₀ := by
  unfold initNodePmap at h
  cases hl : alook ns₀ np with
  | some v => rw [hl] at h; exact .inl h
  | none =>
    rw [hl] at h
    by_cases hns : ns₀ = ns
    · exact .inr hns.symm
    · rw [alook_append_single_other _ _ _ _ hns] at h
      exact .inl h

theorem initNsMissing_mono (nsInfo : List (String × NsEntry))
    (nm nm' : List (String × List (List ℤ))) (ns₀ : String)
    (h : initNsMissing nsInfo nm ns₀ = some nm') (ns : String)
    (hs : (alook ns nm).isSome) : (alook ns nm').isSome := by
  unfold initNsMissing at h
  cases h₁ : alook ns₀ nm with
  | some v => rw [h₁] at h; cases h; exact hs
  | none =>
    rw [h₁] at h
    cases h₂ : alook ns₀ nsInfo with
    | none => rw [h₂] at h; cases h
    | some e =>
      rw [h₂] at h
      cases h
      by_cases hns : ns₀ = ns
      · subst hns
        rw [alook_append_single_self _ _ _ h₁]
        rfl
      · rw [alook_append_single_other _ _ _ _ hns]
        exact hs

theorem initNsMissing_self (nsInfo : List (String × NsEntry))
    (nm nm' : List (String × List (List ℤ))) (ns₀ : String)
    (h : initNsMissing nsInfo nm ns₀ = some nm') :
    (alook ns₀ nm').isSome := by
  unfold initNsMissing at h
  cases h₁ : alook ns₀ nm with
  | some v => rw [h₁] at h; cases h; simp [h₁]
  | none =>
    rw [h₁] at h
    cases h₂ : alook ns₀ nsInfo with
    | none => rw [h₂] at h; cases h
    | some e =>
      rw [h₂] at h
      cases h
      rw [alook_append_single_self _ _ _ h₁]
      rfl

/-- The shape of a successful row step, for key bookkeeping. -/
theorem stepRow_shape (nsInfo : List (String × NsEntry)) (st st' : AState) (row : PRow)
    (h : stepRow nsInfo st row = some st') :
    ∃ nm', initNsMissing nsInfo st.nsMissing row.ns = some nm' ∧
      ((∃ v m, st' = ⟨aset row.ns v (initNodePmap st.nodePmap row.ns), aset row.ns m nm'⟩) ∨
        st' = ⟨initNodePmap st.nodePmap row.ns, nm'⟩) := by
  unfold stepRow at h
  cases hnm : initNsMissing nsInfo st.nsMissing row.ns with
  | none => rw [hnm] at h; exact absurd h (by simp)
  | some nm' =>
    rw [hnm] at h
    refine ⟨nm', rfl, ?_⟩
    by_cases hs : row.state = "S"
    · simp only [if_pos hs] at h
      cases h
      exact .inl ⟨_, _, rfl⟩
    · simp only [if_neg hs] at h
      cases h
      exact .inr rfl

theorem stepRow_missing_isSome (nsInfo : List (String × NsEntry)) (st st' : AState)
    (row : PRow) (h : stepRow nsInfo st row = some st') (ns : String)
    (hs : (alook ns st.nsMissing).isSome ∨ ns = row.ns) :
    (alook ns st'.nsMissing).isSome := by
  obtain ⟨nm', hnm, hshape⟩ := stepRow_shape nsInfo st st' row h
  have hnm'some : (alook ns nm').isSome := by
    rcases hs with hs | hs
    · exact initNsMissing_mono nsInfo st.nsMissing nm' row.ns hnm ns hs
    · subst hs
      exact initNsMissing_self nsInfo st.nsMissing nm' row.ns hnm
  rcases hshape with ⟨v, m, rfl⟩ | rfl
  · rw [alook_aset_isSome]
    exact hnm'some
  · exact hnm'some

theorem stepRow_pmap_origin (nsInfo : List (String × NsEntry)) (st st' : AState)
    (row : PRow) (h : stepRow nsInfo st row = some st') (ns : String)
    (hs : (alook ns st'.nodePmap).isSome) :
    (alook ns st.nodePmap).isSome ∨ ns = row.ns := by
  obtain ⟨nm', _, hshape⟩ := stepRow_shape nsInfo st st' row h
  rcases hshape with ⟨v, m, rfl⟩ | rfl
  · rw [alook_aset_isSome] at hs
    exact initNodePmap_origin _ _ _ hs
  · exact initNodePmap_origin _ _ _ hs

theorem stepRow_total (nsInfo : List (String × NsEntry)) (st : AState) (row : PRow)
    (h : (alook row.ns nsInfo).isSome) : ∃ st', stepRow nsInfo st row = some st' := by
  obtain ⟨e, he⟩ := Option.isSome_iff_exists.mp h
  obtain ⟨st', hst', _⟩ := stepRow_spec nsInfo st row e he
  exact ⟨st', hst'⟩

theorem processRows_total (nsInfo : List (String × NsEntry)) :
    ∀ (rows : List PRow) (st : AState),
      (∀ r ∈ rows, (alook r.ns nsInfo).isSome) →
      ∃ st', processRows nsInfo st rows = some st'
  | [], st, _ => ⟨st, rfl⟩
  | r :: rows, st, h => by
    obtain ⟨st₁, h₁⟩ := stepRow_total nsInfo st r (h r (by simp))
    obtain ⟨st', h'⟩ := processRows_total nsInfo rows st₁ (fun x hx => h x (by simp [hx]))
    exact ⟨st', by rw [processRows, List.foldlM_cons, h₁]; exact h'⟩

/-- Key bookkeeping along one node's rows: namespaces present in the
missing structure stay present, and every namespace of the node's pmap is
in the missing structure. -/
theorem processRows_keys (nsInfo : List (String × NsEntry)) :
    ∀ (rows : List PRow) (st st' : AState),
      processRows nsInfo st rows = some st' →
      (∀ ns, (alook ns st.nodePmap).isSome → (alook ns st.nsMissing).isSome) →
      (∀ ns, (alook ns st.nsMissing).isSome → (alook ns st'.nsMissing).isSome) ∧
        (∀ ns, (alook ns st'.nodePmap).isSome → (alook ns st'.nsMissing).isSome)
  | [], st, st', h, hinv => by
    have : st' = st := by simp [processRows, List.foldlM] at h; exact h.symm
    subst this
    exact ⟨fun _ hs => hs, hinv⟩
  | r :: rows, st, st', h, hinv => by
    rw [processRows, List.foldlM_cons] at h
    cases h₁ : stepRow nsInfo st r with
    | none => rw [h₁] at h; exact absurd h (by simp)
    | some st₁ =>
      rw [h₁] at h
      have hinv₁ : ∀ ns, (alook ns st₁.nodePmap).isSome → (alook ns st₁.nsMissing).isSome := by
        intro ns hs
        rcases stepRow_pmap_origin nsInfo st st₁ r h₁ ns hs with ho | ho
        · exact stepRow_missing_isSome nsInfo st st₁ r h₁ ns (.inl (hinv ns ho))
        · exact stepRow_missing_isSome nsInfo st st₁ r h₁ ns (.inr ho)
      obtain ⟨hm, hp⟩ := processRows_keys nsInfo rows st₁ st' h hinv₁
      exact ⟨fun ns hs => hm ns (stepRow_missing_isSome nsInfo st st₁ r h₁ ns (.inl hs)), hp⟩

/-- `mapM` over `Option` succeeds when every element does. -/
theorem mapM_total {α β : Type} (f : α → Option β) :
    ∀ l : List α, (∀ a ∈ l, ∃ b, f a = some b) → ∃ l', l.mapM f = some l'
  | [], _ => ⟨[], rfl⟩
  | a :: l, h => by
    obtain ⟨b, hb⟩ := h a (by simp)
    obtain ⟨l', hl'⟩ := mapM_total f l (fun x hx => h x (by simp [hx]))
    exact ⟨b :: l', by rw [List.mapM_cons, hb, hl']; rfl⟩

/-- Every element of a successful `mapM` image comes from an element of
the source. -/
theorem mapM_mem {α β : Type} (f : α → Option β) :
    ∀ (l : List α) (l' : List β), l.mapM f = some l' →
      ∀ b ∈ l', ∃ a ∈ l, f a = some b
  | [], l', h, b, hb => by
    have h0 : ([] : List α).mapM f = some [] := rfl
    rw [h0] at h
    cases h
    simp at hb
  | a :: l, l', h, b, hb => by
    rw [List.mapM_cons] at h
    cases hfa : f a with
    | none => rw [hfa] at h; exact absurd h (by simp)
    | some b₀ =>
      rw [hfa] at h
      cases hml : l.mapM f with
      | none => rw [hml] at h; exact absurd h (by simp)
      | some l₀ =>
        rw [hml] at h
        simp at h
        subst h
        rcases List.mem_cons.mp hb with rfl | hb₀
        · exact ⟨a, by simp, hfa⟩
        · obtain ⟨x, hx, hfx⟩ := mapM_mem f l l₀ hml b hb₀
          exact ⟨x, by simp [hx], hfx⟩

/-- Finalization succeeds when every namespace of every node report is
known to the missing structure. -/
theorem finalizePmap_total (pd : List (String × List (String × NsReport)))
    (miss : List (String × List (List ℤ)))
    (h : ∀ p ∈ pd, ∀ q ∈ p.2, (alook q.1 miss).isSome) :
    ∃ out, finalizePmap pd miss = some out := by
  apply mapM_total
  intro p hp
  have hinner : ∃ l, p.2.mapM (fun nsEntry =>
      (finalizeNs miss nsEntry.1 nsEntry.2).map fun fr => (nsEntry.1, fr)) = some l := by
    apply mapM_total
    intro q hq
    obtain ⟨marr, hmarr⟩ := Option.isSome_iff_exists.mp (h p hp q hq)
    refine ⟨(q.1, ⟨q.2.priIndex, q.2.secIndex, q.2.masterDisc, q.2.replicaDisc,
      formatMissingPart marr⟩), ?_⟩
    rw [finalizeNs, hmarr]
    rfl
  obtain ⟨l, hl⟩ := hinner
  exact ⟨(p.1, l), by rw [hl]; rfl⟩

/-- Membership form of finalization: every emitted report carries
`formatMissingPart` of the (cluster-global) missing entry of its
namespace. -/
theorem finalizePmap_mem (pd : List (String × List (String × NsReport)))
    (miss : List (String × List (List ℤ)))
    (out : List (String × List (String × NsReportFinal)))
    (h : finalizePmap pd miss = some out) :
    ∀ p ∈ out, ∀ q ∈ p.2, ∃ (rep : NsReport) (marr : List (List ℤ)),
      alook q.1 miss = some marr ∧
      q.2 = ⟨rep.priIndex, rep.secIndex, rep.masterDisc, rep.replicaDisc,
        formatMissingPart marr⟩ := by
  intro p hp q hq
  obtain ⟨a, _, hfa⟩ := mapM_mem _ pd out h p hp
  cases hml : a.2.mapM (fun nsEntry =>
      (finalizeNs miss nsEntry.1 nsEntry.2).map fun fr => (nsEntry.1, fr)) with
  | none => rw [hml] at hfa; exact absurd hfa (by simp)
  | some l₀ =>
    rw [hml] at hfa
    simp at hfa
    have hp2 : p.2 = l₀ := by rw [← hfa]
    have hq' : q ∈ l₀ := hp2 ▸ hq
    obtain ⟨b, _, hfb⟩ := mapM_mem _ a.2 l₀ hml q hq'
    cases hfn : finalizeNs miss b.1 b.2 with
    | none => rw [hfn] at hfb; exact absurd hfb (by simp)
    | some fr =>
      rw [hfn] at hfb
      simp at hfb
      unfold finalizeNs at hfn
      cases hmarr : alook b.1 miss with
      | none => rw [hmarr] at hfn; cases hfn
      | some marr =>
        rw [hmarr] at hfn
        have hq1 : q.1 = b.1 := by rw [← hfb]
        have hq2 : q.2 = fr := by rw [← hfb]
        refine ⟨b.2, marr, ?_, ?_⟩
        · rw [hq1]
          exact hmarr
        · rw [hq2]
          cases hfn
          rfl

/-- **C9.** The `missing_part` field is cluster-global: in any successful
analysis, all nodes' reports for the same namespace carry the identical
`missing_part` string. -/
theorem missing_part_cluster_global (nsInfo : List (String × NsEntry))
    (pmapInfo : List (String × Except String (List PRow)))
    (out : List (String × List (String × NsReportFinal)))
    (h : pmapAnalysis nsInfo pmapInfo = some out) :
    ∀ p₁ ∈ out, ∀ p₂ ∈ out, ∀ (ns : String) (r₁ r₂ : NsReportFinal),
      (ns, r₁) ∈ p₁.2 → (ns, r₂) ∈ p₂.2 → r₁.missingPart = r₂.missingPart := by
  intro p₁ hp₁ p₂ hp₂ ns r₁ r₂ h₁ h₂
  unfold pmapAnalysis at h
  cases hpm : getPmapData nsInfo pmapInfo with
  | none => rw [hpm] at h; cases h
  | some pm =>
    rw [hpm] at h
    obtain ⟨rep₁, marr₁, hm₁, he₁⟩ := finalizePmap_mem pm.1 pm.2 out h p₁ hp₁ (ns, r₁) h₁
    obtain ⟨rep₂, marr₂, hm₂, he₂⟩ := finalizePmap_mem pm.1 pm.2 out h p₂ hp₂ (ns, r₂) h₂
    have hmarr : marr₁ = marr₂ := by
      have := hm₁.symm.trans hm₂
      exact Option.some.injEq _ _ ▸ this
    have e₁ : r₁.missingPart = formatMissingPart marr₁ :=
      congrArg NsReportFinal.missingPart he₁
    have e₂ : r₂.missingPart = formatMissingPart marr₂ :=
      congrArg NsReportFinal.missingPart he₂
    rw [e₁, e₂, hmarr]

theorem getPmapData_total_keys (nsInfo : List (String × NsEntry)) :
    ∀ (pmapInfo : List (String × Except String (List PRow)))
      (acc : List (String × List (String × NsReport)) × List (String × List (List ℤ))),
      (∀ node res, (node, res) ∈ pmapInfo → ∀ rows, res = .ok rows →
        ∀ r ∈ rows, (alook r.ns nsInfo).isSome) →
      (∀ p ∈ acc.1, ∀ q ∈ p.2, (alook q.1 acc.2).isSome) →
      ∃ pd miss, pmapInfo.foldlM (stepNode nsInfo) acc = some (pd, miss) ∧
        ∀ p ∈ pd, ∀ q ∈ p.2, (alook q.1 miss).isSome
  | [], acc, _, hacc => ⟨acc.1, acc.2, rfl, hacc⟩
  | (nk, res) :: rest, acc, hok, hacc => by
    cases res with
    | error msg =>
      obtain ⟨pd, miss, hfold, hkeys⟩ := getPmapData_total_keys nsInfo rest acc
        (fun node r hr rows hrows => hok node r (by simp [hr]) rows hrows) hacc
      exact ⟨pd, miss, by rw [List.foldlM_cons]; exact hfold, hkeys⟩
    | ok rows =>
      obtain ⟨st, hst⟩ := processRows_total nsInfo rows ⟨[], acc.2⟩
        (hok nk (.ok rows) (by simp) rows rfl)
      obtain ⟨hmono, hsub⟩ := processRows_keys nsInfo rows ⟨[], acc.2⟩ st hst
        (by intro ns hs; simp [alook] at hs)
      obtain ⟨pd, miss, hfold, hkeys⟩ := getPmapData_total_keys nsInfo rest
        (acc.1 ++ [(nk, st.nodePmap)], st.nsMissing)
        (fun node r hr rows hrows => hok node r (by simp [hr]) rows hrows)
        (by
          intro p hp q hq
          rcases List.mem_append.mp hp with hp₀ | hp₀
          · exact hmono q.1 (hacc p hp₀ q hq)
          · have hpq : p = (nk, st.nodePmap) := by simpa using hp₀
            subst hpq
            exact hsub q.1 (alook_isSome_of_mem q.1 q.2 _ (by simpa using hq)))
      refine ⟨pd, miss, ?_, hkeys⟩
      rw [List.foldlM_cons]
      have hstepv : stepNode nsInfo acc (nk, .ok rows) =
          some (acc.1 ++ [(nk, st.nodePmap)], st.nsMissing) := by
        have h0 : stepNode nsInfo acc (nk, .ok rows) =
            match processRows nsInfo ⟨[], acc.2⟩ rows with
            | none => none
            | some st => some (acc.1 ++ [(nk, st.nodePmap)], st.nsMissing) := rfl
        rw [h0, hst]
      rw [hstepv]
      exact hfold

/-- The whole analysis succeeds whenever every row's namespace appears in
`ns_info`. -/
theorem pmapAnalysis_total (nsInfo : List (String × NsEntry))
    (pmapInfo : List (String × Except String (List PRow)))
    (hok : ∀ node res, (node, res) ∈ pmapInfo → ∀ rows, res = .ok rows →
      ∀ r ∈ rows, (alook r.ns nsInfo).isSome) :
    ∃ pd miss out, getPmapData nsInfo pmapInfo = some (pd, miss) ∧
      finalizePmap pd miss = some out ∧ pmapAnalysis nsInfo pmapInfo = some out := by
  obtain ⟨pd, miss, hfold, hkeys⟩ := getPmapData_total_keys nsInfo pmapInfo ([], [])
    hok (by simp)
  obtain ⟨out, hout⟩ := finalizePmap_total pd miss hkeys
  refine ⟨pd, miss, out, hfold, hout, ?_⟩
  unfold pmapAnalysis getPmapData
  rw [hfold]
  exact hout

/-! ### The missing-partition structure, index by index -/

theorem initMissing_length (rf : ℤ) : (initMissing rf).length = 4096 := by
  unfold initMissing
  rw [List.length_replicate]

theorem initMissing_getD (rf : ℤ) (idx : ℕ) (h : idx < 4096) :
    (initMissing rf).getD idx [] = (List.range rf.toNat).map Int.ofNat := by
  unfold initMissing
  rw [List.getD_eq_getElem?_getD, List.getElem?_replicate, if_pos h]
  rfl

theorem removeStep_length (marr : List (List ℤ)) (pid pindex : ℤ) :
    (removeStep marr pid pindex).length = marr.length := by
  unfold removeStep
  split
  · simp
  · rfl

theorem removeStep_getD_eq (marr : List (List ℤ)) (pid pindex : ℤ) (idx : ℕ)
    (hpid : pid = (idx : ℤ)) (hlt : idx < marr.length) :
    (removeStep marr pid pindex).getD idx [] = (marr.getD idx []).erase pindex := by
  unfold removeStep
  rw [if_pos (by constructor <;> [omega; (rw [hpid]; exact_mod_cast hlt)])]
  have hnn : ¬ pid < 0 := by omega
  rw [if_neg hnn]
  have htn : pid.toNat = idx := by omega
  rw [htn]
  simp [List.getD_eq_getElem?_getD, List.getElem?_set_self hlt]

theorem removeStep_getD_ne (marr : List (List ℤ)) (pid pindex : ℤ) (idx : ℕ)
    (hne : pid ≠ (idx : ℤ)) (h0 : 0 ≤ pid) :
    (removeStep marr pid pindex).getD idx [] = marr.getD idx [] := by
  unfold removeStep
  split
  · have hnn : ¬ pid < 0 := by omega
    rw [if_neg hnn]
    have htn : pid.toNat ≠ idx := by omega
    simp [List.getD_eq_getElem?_getD, List.getElem?_set_ne htn]
  · rfl

theorem marrRowStep_length (marr : List (List ℤ)) (r : PRow) :
    (marrRowStep marr r).length = marr.length := by
  unfold marrRowStep
  split
  · exact removeStep_length _ _ _
  · rfl

theorem marrFold_length :
    ∀ (l : List PRow) (marr : List (List ℤ)),
      (l.foldl marrRowStep marr).length = marr.length
  | [], _ => rfl
  | r :: l, marr => by
    rw [List.foldl_cons, marrFold_length l, marrRowStep_length]

/-- The per-index residue of the missing-partition fold: index `idx` is
erased once for each sync row of partition `idx` (in row order). -/
theorem marrFold_getD :
    ∀ (l : List PRow) (marr : List (List ℤ)) (idx : ℕ), idx < marr.length →
      (∀ r ∈ l, 0 ≤ r.pid) →
      (l.foldl marrRowStep marr).getD idx [] =
        ((l.filter (fun r => decide (r.state = "S" ∧ r.pid = (idx : ℤ)))).map
          PRow.pindex).foldl (fun acc x => acc.erase x) (marr.getD idx [])
  | [], marr, idx, _, _ => rfl
  | r :: l, marr, idx, hlt, hpos => by
    rw [List.foldl_cons, List.filter_cons]
    have hlen : idx < (marrRowStep marr r).length := by rw [marrRowStep_length]; exact hlt
    have ih := marrFold_getD l (marrRowStep marr r) idx hlen
      (fun x hx => hpos x (by simp [hx]))
    rw [ih]
    by_cases hS : r.state = "S"
    · by_cases hp : r.pid = (idx : ℤ)
      · rw [if_pos (by simp [hS, hp])]
        rw [List.map_cons, List.foldl_cons]
        have : (marrRowStep marr r).getD idx [] = (marr.getD idx []).erase r.pindex := by
          unfold marrRowStep
          rw [if_pos hS]
          exact removeStep_getD_eq marr r.pid r.pindex idx hp hlt
        rw [this]
      · rw [if_neg (by simp [hp])]
        have : (marrRowStep marr r).getD idx [] = marr.getD idx [] := by
          unfold marrRowStep
          rw [if_pos hS]
          exact removeStep_getD_ne marr r.pid r.pindex idx hp (hpos r (by simp))
        rw [this]
    · rw [if_neg (by simp [hS])]
      have : (marrRowStep marr r).getD idx [] = marr.getD idx [] := by
        unfold marrRowStep
        rw [if_neg hS]
      rw [this]

/-- Erasing, one by one, a permutation of a list leaves nothing. -/
theorem foldl_erase_perm :
    ∀ (l init : List ℤ), l.Perm init →
      l.foldl (fun acc x => acc.erase x) init = []
  | [], init, h => by
    have : init = [] := List.nil_perm.mp h
    rw [List.foldl_nil, this]
  | a :: l, init, h => by
    obtain ⟨ha, hperm⟩ := List.cons_perm_iff_perm_erase.mp h
    rw [List.foldl_cons]
    exact foldl_erase_perm l (init.erase a) hperm

theorem join_map_empty {α : Type} :
    ∀ l : List α, String.join (l.map (fun _ => "")) = ""
  | [] => rfl
  | _ :: l => by
    have ih := join_map_empty l
    simpa [String.join] using ih

/-- `_format_missing_part` of an all-empty structure is the empty
string. -/
theorem formatMissingPart_all_nil (marr : List (List ℤ))
    (h : ∀ part ∈ marr, part = []) : formatMissingPart marr = "" := by
  unfold formatMissingPart
  have h1 : (marr.enum.map fun pe =>
      String.join (pe.2.map fun pindex => toString pe.1 ++ ":S:" ++ toString pindex ++ ",")) =
      marr.enum.map fun _ => "" := by
    apply List.map_congr_left
    intro pe hpe
    have hmem : pe.2 ∈ marr :=
      List.snd_mem_of_mem_enumFrom (by simpa [List.enum] using hpe)
    rw [h pe.2 hmem]
    rfl
  rw [h1, join_map_empty]
  rfl

theorem getD_eq_of_mem (marr : List (List ℤ)) (part : List ℤ) (h : part ∈ marr) :
    ∃ idx, idx < marr.length ∧ marr.getD idx [] = part := by
  obtain ⟨i, hi, hget⟩ := List.mem_iff_getElem.mp h
  exact ⟨i, hi, by simp [List.getD_eq_getElem?_getD, List.getElem?_eq_getElem hi, hget]⟩

/-! ### Counting rows per partition -/

theorem countP_fiber {α : Type} (Q : α → Prop) [DecidablePred Q] (f : α → ℤ) (N : ℕ) :
    ∀ l : List α, (∀ r ∈ l, Q r → ∃ p : ℕ, p < N ∧ f r = (p : ℤ)) →
      l.countP (fun r => decide (Q r)) =
        ∑ p ∈ Finset.range N, l.countP (fun r => decide (Q r ∧ f r = (p : ℤ)))
  | [], _ => by simp
  | r :: l, h => by
    have ih := countP_fiber Q f N l (fun x hx => h x (List.mem_cons_of_mem _ hx))
    simp only [List.countP_cons]
    rw [ih, Finset.sum_add_distrib]
    congr 1
    by_cases hQ : Q r
    · obtain ⟨p₀, hp₀, hf⟩ := h r (by simp) hQ
      have hpt : ∀ p ∈ Finset.range N,
          (if decide (Q r ∧ f r = (p : ℤ)) = true then 1 else 0) =
            if p = p₀ then 1 else 0 := by
        intro p _
        by_cases hpp : p = p₀
        · subst hpp
          simp [hQ, hf]
        · have hnf : f r ≠ (p : ℤ) := by
            rw [hf]
            intro hc
            have hc' : p₀ = p := by exact_mod_cast hc
            exact hpp hc'.symm
          simp [hQ, hnf, hpp]
      rw [Finset.sum_congr rfl hpt, Finset.sum_ite_eq' (Finset.range N) p₀ (fun _ => 1)]
      simp [Finset.mem_range.mpr hp₀, hQ]
    · simp [hQ]

theorem countP_range_eq (i : ℕ) :
    ∀ R : ℕ, (List.range R).countP (fun j : ℕ => decide ((j : ℤ) = (i : ℤ))) =
      if i < R then 1 else 0
  | 0 => by simp
  | n + 1 => by
    rw [List.range_succ, List.countP_append, countP_range_eq i n]
    simp only [List.countP_cons, List.countP_nil, Nat.cast_inj, decide_eq_true_eq]
    split_ifs <;> omega

theorem countP_range_ge1 :
    ∀ R : ℕ, (List.range R).countP (fun j => decide (1 ≤ j)) = R - 1
  | 0 => by simp
  | n + 1 => by
    rw [List.range_succ, List.countP_append, countP_range_ge1 n]
    simp only [List.countP_cons, List.countP_nil, decide_eq_true_eq]
    split_ifs <;> omega

theorem countP_range_sec (R : ℕ) :
    (List.range R).countP
      (fun j : ℕ => decide (1 ≤ (j : ℤ) ∧ (j : ℤ) < (R : ℤ))) = R - 1 := by
  have hcg : ∀ x ∈ List.range R,
      (fun j : ℕ => decide (1 ≤ (j : ℤ) ∧ (j : ℤ) < (R : ℤ))) x ↔
        (fun j : ℕ => decide (1 ≤ j)) x := by
    intro j hj
    have hjR := List.mem_range.mp hj
    simp only [decide_eq_true_eq]
    constructor
    · intro hc
      exact_mod_cast hc.1
    · intro hc
      exact ⟨by exact_mod_cast hc, by exact_mod_cast hjR⟩
  rw [List.countP_congr hcg, countP_range_ge1]

/-! ### Pairing the finalized output with the raw reports -/

theorem mapM_forall2 {α β : Type} (f : α → Option β) :
    ∀ (l : List α) (l' : List β), l.mapM f = some l' →
      List.Forall₂ (fun a b => f a = some b) l l'
  | [], l', h => by
    have h0 : ([] : List α).mapM f = some [] := rfl
    rw [h0] at h
    cases h
    exact .nil
  | a :: l, l', h => by
    rw [List.mapM_cons] at h
    cases hfa : f a with
    | none => rw [hfa] at h; exact absurd h (by simp)
    | some b =>
      rw [hfa] at h
      cases hml : l.mapM f with
      | none => rw [hml] at h; exact absurd h (by simp)
      | some bs =>
        rw [hml] at h
        simp at h
        subst h
        exact .cons hfa (mapM_forall2 f l bs hml)

/-- Lookup across a key-preserving `Forall₂` pairing. -/
theorem alook_forall2 {β γ : Type} (Rel : β → γ → Prop) :
    ∀ (l : List (String × β)) (l' : List (String × γ)),
      List.Forall₂ (fun q Q => Q.1 = q.1 ∧ Rel q.2 Q.2) l l' →
      ∀ ns, (alook ns l = none ∧ alook ns l' = none) ∨
        ∃ b c, alook ns l = some b ∧ alook ns l' = some c ∧ Rel b c := by
  intro l l' hf
  induction hf with
  | nil => exact fun ns => .inl ⟨rfl, rfl⟩
  | @cons q Q l l' hqQ _ ih =>
    intro ns
    by_cases hk : q.1 = ns
    · right
      refine ⟨q.2, Q.2, ?_, ?_, hqQ.2⟩
      · rcases q with ⟨k, b⟩
        simp only [alook]
        rw [if_pos hk]
      · rcases Q with ⟨k', c⟩
        have hk' : k' = q.1 := hqQ.1
        simp only [alook]
        rw [if_pos (by rw [hk']; exact hk)]
    · have h₁ : alook ns (q :: l) = alook ns l := by
        rcases q with ⟨k, b⟩
        simp only [alook]
        rw [if_neg hk]
      have h₂ : alook ns (Q :: l') = alook ns l' := by
        rcases Q with ⟨k', c⟩
        have hk' : k' = q.1 := hqQ.1
        simp only [alook]
        rw [if_neg (by rw [hk']; exact hk)]
      rw [h₁, h₂]
      exact ih ns

/-- The field-preservation relation between a raw report and its
finalized form. -/
def finalRel (miss : List (String × List (List ℤ))) (ns : String)
    (rep : NsReport) (fr : NsReportFinal) : Prop :=
  fr.priIndex = rep.priIndex ∧ fr.secIndex = rep.secIndex ∧
    fr.masterDisc = rep.masterDisc ∧ fr.replicaDisc = rep.replicaDisc ∧
    ∃ marr, alook ns miss = some marr ∧ fr.missingPart = formatMissingPart marr

theorem finalizePmap_forall2 (pd : List (String × List (String × NsReport)))
    (miss : List (String × List (List ℤ)))
    (out : List (String × List (String × NsReportFinal)))
    (h : finalizePmap pd miss = some out) :
    List.Forall₂ (fun p P => P.1 = p.1 ∧
      List.Forall₂ (fun q Q => Q.1 = q.1 ∧ finalRel miss q.1 q.2 Q.2) p.2 P.2) pd out := by
  have houter := mapM_forall2 _ pd out h
  refine List.Forall₂.imp ?_ houter
  intro p P hp
  cases hml : p.2.mapM (fun nsEntry =>
      (finalizeNs miss nsEntry.1 nsEntry.2).map fun fr => (nsEntry.1, fr)) with
  | none => rw [hml] at hp; exact absurd hp (by simp)
  | some l₀ =>
    rw [hml] at hp
    simp at hp
    have hinner := mapM_forall2 _ p.2 l₀ hml
    have hP1 : P.1 = p.1 := by rw [← hp]
    have hP2 : P.2 = l₀ := by rw [← hp]
    refine ⟨hP1, ?_⟩
    rw [hP2]
    refine List.Forall₂.imp ?_ hinner
    intro q Q hq
    cases hfn : finalizeNs miss q.1 q.2 with
    | none => rw [hfn] at hq; exact absurd hq (by simp)
    | some fr =>
      rw [hfn] at hq
      simp at hq
      have hQ1 : Q.1 = q.1 := by rw [← hq]
      have hQ2 : Q.2 = fr := by rw [← hq]
      refine ⟨hQ1, ?_⟩
      unfold finalizeNs at hfn
      cases hmarr : alook q.1 miss with
      | none => rw [hmarr] at hfn; cases hfn
      | some marr =>
        rw [hmarr] at hfn
        cases hfn
        rw [hQ2]
        exact ⟨rfl, rfl, rfl, rfl, marr, hmarr, rfl⟩

/-- `pri_index` of a finalized node report for one namespace. -/
def priOfF (ns : String) (l : List (String × NsReportFinal)) : ℕ :=
  ((alook ns l).map NsReportFinal.priIndex).getD 0

def secOfF (ns : String) (l : List (String × NsReportFinal)) : ℕ :=
  ((alook ns l).map NsReportFinal.secIndex).getD 0

def priSumF (ns : String) (out : List (String × List (String × NsReportFinal))) : ℕ :=
  (out.map (fun p => priOfF ns p.2)).sum

def secSumF (ns : String) (out : List (String × List (String × NsReportFinal))) : ℕ :=
  (out.map (fun p => secOfF ns p.2)).sum

theorem finalizePmap_sums (pd : List (String × List (String × NsReport)))
    (miss : List (String × List (List ℤ)))
    (out : List (String × List (String × NsReportFinal)))
    (h : finalizePmap pd miss = some out) (ns : String) :
    priSumF ns out = priSum ns pd ∧ secSumF ns out = secSum ns pd := by
  have hf := finalizePmap_forall2 pd miss out h
  clear h
  unfold priSumF secSumF priSum secSum
  induction hf with
  | nil => exact ⟨rfl, rfl⟩
  | @cons p P l l' hpP _ ih =>
    simp only [List.map_cons, List.sum_cons]
    have hl := alook_forall2 (fun (rep : NsReport) (fr : NsReportFinal) =>
        fr.priIndex = rep.priIndex ∧ fr.secIndex = rep.secIndex) p.2 P.2
      (List.Forall₂.imp (fun {q Q} hq => ⟨hq.1, hq.2.1, hq.2.2.1⟩) hpP.2) ns
    have hhead : priOfF ns P.2 = priOf ns p.2 ∧ secOfF ns P.2 = secOf ns p.2 := by
      rcases hl with ⟨h₁, h₂⟩ | ⟨b, c, h₁, h₂, hrel⟩
      · unfold priOfF priOf secOfF secOf
        rw [h₁, h₂]
        exact ⟨rfl, rfl⟩
      · unfold priOfF priOf secOfF secOf
        rw [h₁, h₂]
        exact ⟨by simp [hrel.1], by simp [hrel.2]⟩
    rw [hhead.1, hhead.2, ih.1, ih.2]
    exact ⟨rfl, rfl⟩

theorem forall2_mem_right {α β : Type} {R : α → β → Prop} :
    ∀ {l : List α} {l' : List β}, List.Forall₂ R l l' → ∀ b ∈ l', ∃ a ∈ l, R a b := by
  intro l l' hf
  induction hf with
  | nil => intro b hb; simp at hb
  | @cons a b l l' hab _ ih =>
    intro c hc
    rcases List.mem_cons.mp hc with rfl | hc₀
    · exact ⟨a, by simp, hab⟩
    · obtain ⟨x, hx, hR⟩ := ih c hc₀
      exact ⟨x, by simp [hx], hR⟩

theorem okRows_mem (pmapInfo : List (String × Except String (List PRow)))
    (nk : String) (rows : List PRow) (h : (nk, .ok rows) ∈ pmapInfo) :
    ∀ r ∈ rows, r ∈ okRows pmapInfo := by
  intro r hr
  unfold okRows
  rw [List.mem_flatMap]
  exact ⟨(nk, .ok rows), h, hr⟩

theorem processRows_pmap_origin (nsInfo : List (String × NsEntry)) :
    ∀ (rows : List PRow) (st st' : AState),
      processRows nsInfo st rows = some st' →
      ∀ ns₀, (alook ns₀ st'.nodePmap).isSome →
        (alook ns₀ st.nodePmap).isSome ∨ ∃ r ∈ rows, r.ns = ns₀
  | [], st, st', h, ns₀, hs => by
    have : st' = st := by simp [processRows, List.foldlM] at h; exact h.symm
    subst this
    exact .inl hs
  | r :: rows, st, st', h, ns₀, hs => by
    rw [processRows, List.foldlM_cons] at h
    cases h₁ : stepRow nsInfo st r with
    | none => rw [h₁] at h; exact absurd h (by simp)
    | some st₁ =>
      rw [h₁] at h
      rcases processRows_pmap_origin nsInfo rows st₁ st' h ns₀ hs with h₀ | ⟨x, hx, hxn⟩
      · rcases stepRow_pmap_origin nsInfo st st₁ r h₁ ns₀ h₀ with h₂ | h₂
        · exact .inl h₂
        · exact .inr ⟨r, by simp, h₂.symm⟩
      · exact .inr ⟨x, by simp [hx], hxn⟩

theorem getPmapData_pd_mem (nsInfo : List (String × NsEntry)) :
    ∀ (pmapInfo : List (String × Except String (List PRow)))
      (acc : List (String × List (String × NsReport)) × List (String × List (List ℤ)))
      (pd : List (String × List (String × NsReport)))
      (miss : List (String × List (List ℤ))),
      pmapInfo.foldlM (stepNode nsInfo) acc = some (pd, miss) →
      ∀ p ∈ pd, p ∈ acc.1 ∨
        ∃ rows m₀ st, (p.1, Except.ok rows) ∈ pmapInfo ∧
          processRows nsInfo ⟨[], m₀⟩ rows = some st ∧ p.2 = st.nodePmap
  | [], acc, pd, miss, h, p, hp => by
    have : acc = (pd, miss) := by simp [List.foldlM] at h; exact h
    subst this
    exact .inl hp
  | (nk, res) :: rest, acc, pd, miss, h, p, hp => by
    rw [List.foldlM_cons] at h
    cases res with
    | error msg =>
      have hstep : stepNode nsInfo acc (nk, .error msg) = some acc := rfl
      rw [hstep] at h
      rcases getPmapData_pd_mem nsInfo rest acc pd miss h p hp with h₀ | ⟨rows, m₀, st, hmem, hpr, hval⟩
      · exact .inl h₀
      · exact .inr ⟨rows, m₀, st, by simp [hmem], hpr, hval⟩
    | ok rows =>
      have h0 : stepNode nsInfo acc (nk, .ok rows) =
          match processRows nsInfo ⟨[], acc.2⟩ rows with
          | none => none
          | some st => some (acc.1 ++ [(nk, st.nodePmap)], st.nsMissing) := rfl
      rw [h0] at h
      cases hpr : processRows nsInfo ⟨[], acc.2⟩ rows with
      | none => rw [hpr] at h; exact absurd h (by simp)
      | some st =>
        rw [hpr] at h
        rcases getPmapData_pd_mem nsInfo rest (acc.1 ++ [(nk, st.nodePmap)], st.nsMissing)
          pd miss h p hp with h₀ | ⟨rows', m₀, st', hmem, hpr', hval⟩
        · rcases List.mem_append.mp h₀ with h₁ | h₁
          · exact .inl h₁
          · have hpv : p = (nk, st.nodePmap) := by simpa using h₁
            exact .inr ⟨rows, acc.2, st, by simp [hpv], hpr, by rw [hpv]⟩
        · exact .inr ⟨rows', m₀, st', by simp [hmem], hpr', hval⟩

/-- **C1.** Partition coverage: when every partition id in `[0, 4096)`
carries exactly one sync row per replica index in `[0, R)` across the
cluster (and nothing else), the analysis succeeds, the per-node reports
sum to `4096` primary and `4096 * (R - 1)` secondary partitions, and
`missing_part` is the empty string on every node's report. -/
theorem partition_coverage (nsInfo : List (String × NsEntry)) (ns : String)
    (e : NsEntry) (R : ℕ) (hR : 1 ≤ R)
    (he : alook ns nsInfo = some e) (heR : e.replFactor = (R : ℤ))
    (pmapInfo : List (String × Except String (List PRow)))
    (hns : ∀ r ∈ okRows pmapInfo, r.ns = ns ∧ r.state = "S" ∧
      0 ≤ r.pid ∧ r.pid < 4096 ∧ 0 ≤ r.pindex ∧ r.pindex < (R : ℤ))
    (hcov : ∀ p : ℕ, p < 4096 →
      (((okRows pmapInfo).filter (fun r => decide (r.pid = (p : ℤ)))).map PRow.pindex).Perm
        ((List.range R).map Int.ofNat)) :
    ∃ out, pmapAnalysis nsInfo pmapInfo = some out ∧
      priSumF ns out = 4096 ∧
      secSumF ns out = 4096 * (R - 1) ∧
      ∀ p ∈ out, ∀ q ∈ p.2, q.2.missingPart = "" := by
  have hok : ∀ node res, (node, res) ∈ pmapInfo → ∀ rows, res = .ok rows →
      ∀ r ∈ rows, (alook r.ns nsInfo).isSome := by
    intro node res hmem rows hres r hr
    subst hres
    have hok₀ := okRows_mem pmapInfo node rows hmem r hr
    rw [(hns r hok₀).1, he]
    rfl
  obtain ⟨pd, miss, out, hfold, hfin, hana⟩ := pmapAnalysis_total nsInfo pmapInfo hok
  obtain ⟨hpri, hsec, hmiss⟩ := stepNode_fold_spec nsInfo ns e he pmapInfo ([], []) pd miss hfold
  have hnsr : nsRows ns (okRows pmapInfo) = okRows pmapInfo := by
    unfold nsRows
    rw [List.filter_eq_self]
    intro r hr
    simp [(hns r hr).1]
  rw [hnsr] at hpri hsec hmiss
  -- the analysis is non-degenerate: partition 0 must carry R ≥ 1 rows
  have hnonempty : okRows pmapInfo ≠ [] := by
    intro hnil
    have hp := hcov 0 (by norm_num)
    rw [hnil] at hp
    simp at hp
    omega
  -- (1) primary sum
  have hpriCount : (okRows pmapInfo).countP isPriRow = 4096 := by
    have hfib := countP_fiber (fun r : PRow => r.state = "S" ∧ r.pindex = 0) PRow.pid 4096
      (okRows pmapInfo)
      (by
        intro r hr _
        obtain ⟨_, _, hp0, hp4, _, _⟩ := hns r hr
        exact ⟨r.pid.toNat, by omega, by omega⟩)
    have hfibv : ∀ p : ℕ, p < 4096 →
        (okRows pmapInfo).countP
          (fun r => decide ((r.state = "S" ∧ r.pindex = 0) ∧ r.pid = (p : ℤ))) = 1 := by
      intro p hp
      have hstepA : (okRows pmapInfo).countP
          (fun r => decide ((r.state = "S" ∧ r.pindex = 0) ∧ r.pid = (p : ℤ))) =
          (okRows pmapInfo).countP
            (fun r => decide (r.pindex = 0) && decide (r.pid = (p : ℤ))) := by
        apply List.countP_congr
        intro r hr
        have hS := (hns r hr).2.1
        simp only [Bool.and_eq_true, decide_eq_true_eq]
        constructor
        · intro hx
          exact ⟨hx.1.2, hx.2⟩
        · intro hx
          exact ⟨⟨hS, hx.1⟩, hx.2⟩
      rw [hstepA, ← List.countP_filter]
      have hmapped : ((okRows pmapInfo).filter (fun r => decide (r.pid = (p : ℤ)))).countP
          (fun r => decide (r.pindex = 0)) =
          (((okRows pmapInfo).filter (fun r => decide (r.pid = (p : ℤ)))).map
            PRow.pindex).countP (fun x : ℤ => decide (x = 0)) := by
        rw [List.countP_map]
        rfl
      rw [hmapped, (hcov p hp).countP_eq]
      have hrange : ((List.range R).map Int.ofNat).countP (fun x : ℤ => decide (x = 0)) =
          (List.range R).countP (fun j : ℕ => decide ((j : ℤ) = ((0 : ℕ) : ℤ))) := by
        rw [List.countP_map]
        rfl
      have h0R : 0 < R := hR
      rw [hrange, countP_range_eq 0 R, if_pos h0R]
    have hIsPri : (okRows pmapInfo).countP isPriRow =
        (okRows pmapInfo).countP
          (fun r => decide (r.state = "S" ∧ r.pindex = 0)) := rfl
    rw [hIsPri, hfib, Finset.sum_congr rfl (fun p hp => hfibv p (Finset.mem_range.mp hp))]
    simp
  -- (2) secondary sum
  have hsecCount : (okRows pmapInfo).countP (isSecRow e) = 4096 * (R - 1) := by
    have hfib := countP_fiber
      (fun r : PRow => r.state = "S" ∧ 1 ≤ r.pindex ∧ r.pindex < e.replFactor) PRow.pid 4096
      (okRows pmapInfo)
      (by
        intro r hr _
        obtain ⟨_, _, hp0, hp4, _, _⟩ := hns r hr
        exact ⟨r.pid.toNat, by omega, by omega⟩)
    have hfibv : ∀ p : ℕ, p < 4096 →
        (okRows pmapInfo).countP
          (fun r => decide ((r.state = "S" ∧ 1 ≤ r.pindex ∧ r.pindex < e.replFactor) ∧
            r.pid = (p : ℤ))) = R - 1 := by
      intro p hp
      have hstepA : (okRows pmapInfo).countP
          (fun r => decide ((r.state = "S" ∧ 1 ≤ r.pindex ∧ r.pindex < e.replFactor) ∧
            r.pid = (p : ℤ))) =
          (okRows pmapInfo).countP
            (fun r => decide (1 ≤ r.pindex ∧ r.pindex < (R : ℤ)) &&
              decide (r.pid = (p : ℤ))) := by
        apply List.countP_congr
        intro r hr
        have hS := (hns r hr).2.1
        simp only [Bool.and_eq_true, decide_eq_true_eq]
        constructor
        · intro hx
          exact ⟨heR ▸ hx.1.2, hx.2⟩
        · intro hx
          exact ⟨⟨hS, heR ▸ hx.1⟩, hx.2⟩
      rw [hstepA, ← List.countP_filter]
      have hmapped : ((okRows pmapInfo).filter (fun r => decide (r.pid = (p : ℤ)))).countP
          (fun r => decide (1 ≤ r.pindex ∧ r.pindex < (R : ℤ))) =
          (((okRows pmapInfo).filter (fun r => decide (r.pid = (p : ℤ)))).map
            PRow.pindex).countP (fun x : ℤ => decide (1 ≤ x ∧ x < (R : ℤ))) := by
        rw [List.countP_map]
        rfl
      rw [hmapped, (hcov p hp).countP_eq]
      have hrange : ((List.range R).map Int.ofNat).countP
          (fun x : ℤ => decide (1 ≤ x ∧ x < (R : ℤ))) =
          (List.range R).countP (fun j : ℕ => decide (1 ≤ (j : ℤ) ∧ (j : ℤ) < (R : ℤ))) := by
        rw [List.countP_map]
        rfl
      rw [hrange]
      exact countP_range_sec R
    have hIsSec : (okRows pmapInfo).countP (isSecRow e) =
        (okRows pmapInfo).countP
          (fun r => decide (r.state = "S" ∧ 1 ≤ r.pindex ∧ r.pindex < e.replFactor)) := rfl
    rw [hIsSec, hfib, Finset.sum_congr rfl (fun p hp => hfibv p (Finset.mem_range.mp hp))]
    simp [Finset.sum_const, Finset.card_range, Nat.mul_comm]
  -- (3) the final missing structure is empty everywhere
  have hmissv : alook ns miss =
      some ((okRows pmapInfo).foldl marrRowStep (initMissing e.replFactor)) := by
    rw [hmiss, if_neg (by
      intro hx
      exact hnonempty hx.2)]
    rfl
  have hM : ∀ part ∈ (okRows pmapInfo).foldl marrRowStep (initMissing e.replFactor),
      part = [] := by
    intro part hpart
    obtain ⟨idx, hidx, hget⟩ := getD_eq_of_mem _ part hpart
    rw [marrFold_length, initMissing_length] at hidx
    have hgd := marrFold_getD (okRows pmapInfo) (initMissing e.replFactor) idx
      (by rw [initMissing_length]; exact hidx)
      (fun r hr => (hns r hr).2.2.1)
    have hfiltr : (okRows pmapInfo).filter
        (fun r => decide (r.state = "S" ∧ r.pid = (idx : ℤ))) =
        (okRows pmapInfo).filter (fun r => decide (r.pid = (idx : ℤ))) := by
      apply List.filter_congr
      intro r hr
      simp only [decide_eq_true_eq, decide_eq_decide]
      have hS := (hns r hr).2.1
      constructor
      · intro hx; exact hx.2
      · intro hx; exact ⟨hS, hx⟩
    rw [hfiltr, initMissing_getD _ _ hidx] at hgd
    have hRtoNat : e.replFactor.toNat = R := by rw [heR]; exact Int.toNat_natCast R
    rw [hRtoNat] at hgd
    rw [foldl_erase_perm _ _ (hcov idx hidx)] at hgd
    rw [← hget, hgd]
  refine ⟨out, hana, ?_, ?_, ?_⟩
  · obtain ⟨hps, _⟩ := finalizePmap_sums pd miss out hfin ns
    rw [hps, hpri, hpriCount]
    simp [priSum]
  · obtain ⟨_, hss⟩ := finalizePmap_sums pd miss out hfin ns
    rw [hss, hsec, hsecCount]
    simp [secSum]
  · intro P hP Q hQ
    have hf2 := finalizePmap_forall2 pd miss out hfin
    obtain ⟨p₀, hp₀, hP1, hinner⟩ := forall2_mem_right hf2 P hP
    obtain ⟨q₀, hq₀, hQ1, hrel⟩ := forall2_mem_right hinner Q hQ
    -- the namespace of every report is `ns`
    have hq₀ns : q₀.1 = ns := by
      rcases getPmapData_pd_mem nsInfo pmapInfo ([], []) pd miss hfold p₀ hp₀ with h₀ | h₀
      · simp at h₀
      · obtain ⟨rows, m₀, st, hmem, hpr, hval⟩ := h₀
        have hqsome : (alook q₀.1 st.nodePmap).isSome := by
          rw [← hval]
          exact alook_isSome_of_mem q₀.1 q₀.2 p₀.2 (by simpa using hq₀)
        rcases processRows_pmap_origin nsInfo rows ⟨[], m₀⟩ st hpr q₀.1 hqsome with hc | hc
        · simp [alook] at hc
        · obtain ⟨r, hr, hrns⟩ := hc
          rw [← hrns]
          exact (hns r (okRows_mem pmapInfo p₀.1 rows hmem r hr)).1
    obtain ⟨_, _, _, _, marr, hmarr, hmp⟩ := hrel
    rw [hq₀ns] at hmarr
    have hmeq : marr = (okRows pmapInfo).foldl marrRowStep (initMissing e.replFactor) :=
      Option.some.inj (hmarr.symm.trans hmissv)
    rw [hmp, hmeq]
    exact formatMissingPart_all_nil _ hM

theorem range_filter_castEq (p : ℕ) :
    ∀ n : ℕ, p < n →
      (List.range n).filter (fun q : ℕ => decide ((q : ℤ) = (p : ℤ))) = [p]
  | 0, h => absurd h (by omega)
  | n + 1, h => by
    rw [List.range_succ, List.filter_append]
    by_cases hpn : p = n
    · subst hpn
      have h₁ : (List.range p).filter (fun q : ℕ => decide ((q : ℤ) = (p : ℤ))) = [] := by
        rw [List.filter_eq_nil_iff]
        intro a ha
        have haR := List.mem_range.mp ha
        simp only [decide_eq_true_eq]
        intro hc
        have : a = p := by exact_mod_cast hc
        omega
      rw [h₁]
      simp
    · have hlt : p < n := by omega
      rw [range_filter_castEq p n hlt]
      have h₂ : ([n] : List ℕ).filter (fun q : ℕ => decide ((q : ℤ) = (p : ℤ))) = [] := by
        simp only [List.filter_cons, List.filter_nil]
        rw [if_neg]
        simp only [decide_eq_true_eq]
        intro hc
        have hnp : n = p := by exact_mod_cast hc
        exact hpn hnp.symm
      rw [h₂, List.append_nil]

theorem partition_coverage_witness :
    ∃ out, pmapAnalysis [("t", ⟨0, 0, 1, 1024, 1024⟩)]
        [("n1", Except.ok ((List.range 4096).map
          (fun p : ℕ => (⟨"t", (p : ℤ), "S", 0, 0⟩ : PRow))))] = some out ∧
      priSumF "t" out = 4096 ∧
      secSumF "t" out = 4096 * (1 - 1) ∧
      ∀ p ∈ out, ∀ q ∈ p.2, q.2.missingPart = "" := by
  have hL : okRows [("n1", Except.ok ((List.range 4096).map
      (fun p : ℕ => (⟨"t", (p : ℤ), "S", 0, 0⟩ : PRow))))] =
      (List.range 4096).map (fun p : ℕ => (⟨"t", (p : ℤ), "S", 0, 0⟩ : PRow)) := by
    simp [okRows]
  exact partition_coverage [("t", ⟨0, 0, 1, 1024, 1024⟩)] "t" ⟨0, 0, 1, 1024, 1024⟩ 1
    (Nat.le_refl 1) rfl rfl
    [("n1", Except.ok ((List.range 4096).map
      (fun p : ℕ => (⟨"t", (p : ℤ), "S", 0, 0⟩ : PRow))))]
    (by
      intro r hr
      rw [hL] at hr
      obtain ⟨p, hpmem, rfl⟩ := List.mem_map.mp hr
      have hp4 := List.mem_range.mp hpmem
      refine ⟨rfl, rfl, ?_, ?_, ?_, ?_⟩
      · exact Int.natCast_nonneg p
      · show (p : ℤ) < 4096
        exact_mod_cast hp4
      · show (0 : ℤ) ≤ 0
        exact le_refl 0
      · show (0 : ℤ) < ((1 : ℕ) : ℤ)
        norm_num)
    (by
      intro p hp
      rw [hL, List.filter_map]
      have hcomp : ((fun r : PRow => decide (r.pid = (p : ℤ))) ∘
          (fun q : ℕ => (⟨"t", (q : ℤ), "S", 0, 0⟩ : PRow))) =
          (fun q : ℕ => decide ((q : ℤ) = (p : ℤ))) := rfl
      rw [hcomp, range_filter_castEq p 4096 hp]
      have h₁ : (List.map PRow.pindex (List.map
          (fun q : ℕ => (⟨"t", (q : ℤ), "S", 0, 0⟩ : PRow)) [p])) = [(0 : ℤ)] := rfl
      have h₂ : (List.map Int.ofNat (List.range 1)) = [(0 : ℤ)] := rfl
      rw [h₁, h₂])

def w9entry : NsEntry := ⟨0, 0, 0, 1024, 1024⟩

def w9row : PRow := ⟨"t", 0, "D", 0, 0⟩

def w9rep : NsReportFinal := ⟨0, 0, [], [], formatMissingPart (initMissing 0)⟩

def w9out : List (String × List (String × NsReportFinal)) :=
  [("n1", [("t", w9rep)]), ("n2", [("t", w9rep)])]

theorem missing_part_cluster_global_witness :
    pmapAnalysis [("t", w9entry)]
        [("n1", Except.ok [w9row]), ("n2", Except.ok [w9row])] = some w9out ∧
    ("n1", [("t", w9rep)]) ∈ w9out ∧ ("n2", [("t", w9rep)]) ∈ w9out ∧
    ("t", w9rep) ∈ [("t", w9rep)] ∧
    w9rep.missingPart = w9rep.missingPart := by
  refine ⟨rfl, by simp [w9out], by simp [w9out], by simp, ?_⟩
  exact missing_part_cluster_global [("t", w9entry)]
    [("n1", Except.ok [w9row]), ("n2", Except.ok [w9row])] w9out rfl
    ("n1", [("t", w9rep)]) (by simp [w9out])
    ("n2", [("t", w9rep)]) (by simp [w9out])
    "t" w9rep w9rep (by simp) (by simp)

/-! ### Ordering of the emitted report (C6) -/

/-- Every per-partition list of still-missing replica indices is strictly
increasing. -/
def marrSorted (marr : List (List ℤ)) : Prop :=
  ∀ part ∈ marr, part.Pairwise (fun a b : ℤ => a < b)

/-- The `(pid, replica)` pairs enumerated by `_format_missing_part`, in
emission order. -/
def missingPairs (marr : List (List ℤ)) : List (ℕ × ℤ) :=
  marr.enum.flatMap fun pe => pe.2.map fun ridx => (pe.1, ridx)

/-- Strict lexicographic order on `(pid, replica)` pairs. -/
def pairLt (a b : ℕ × ℤ) : Prop :=
  a.1 < b.1 ∨ (a.1 = b.1 ∧ a.2 < b.2)

theorem string_foldl_shift :
    ∀ (l : List String) (s : String),
      l.foldl (fun r t => r ++ t) s = s ++ l.foldl (fun r t => r ++ t) ""
  | [], s => by
    simp only [List.foldl_nil]
    rw [String.append_empty]
  | a :: l, s => by
    rw [List.foldl_cons, List.foldl_cons]
    rw [string_foldl_shift l (s ++ a), string_foldl_shift l ("" ++ a)]
    rw [String.empty_append, String.append_assoc]

theorem string_join_cons (s : String) (l : List String) :
    String.join (s :: l) = s ++ String.join l := by
  show (s :: l).foldl (fun r t => r ++ t) "" = s ++ l.foldl (fun r t => r ++ t) ""
  rw [List.foldl_cons, String.empty_append]
  exact string_foldl_shift l s

theorem string_join_append (l₁ l₂ : List String) :
    String.join (l₁ ++ l₂) = String.join l₁ ++ String.join l₂ := by
  induction l₁ with
  | nil =>
    rw [List.nil_append, show String.join ([] : List String) = "" from rfl,
      String.empty_append]
  | cons a l ih =>
    rw [List.cons_append, string_join_cons, string_join_cons, ih, String.append_assoc]

theorem join_map_join {α : Type} (g : α → List String) :
    ∀ l : List α,
      String.join (l.map fun a => String.join (g a)) = String.join (l.flatMap g)
  | [] => rfl
  | a :: l => by
    rw [List.map_cons, List.flatMap_cons, string_join_cons, string_join_append,
      join_map_join g l]

/-- `_format_missing_part` emits exactly the `missingPairs`, each rendered
as `"pid:S:replica,"`, concatenated with the last comma stripped. -/
theorem formatMissingPart_eq_pairs (marr : List (List ℤ)) :
    formatMissingPart marr =
      (String.join ((missingPairs marr).map fun pr =>
        toString pr.1 ++ ":S:" ++ toString pr.2 ++ ",")).dropRight 1 := by
  unfold formatMissingPart missingPairs
  refine congrArg (fun s => String.dropRight s 1) ?_
  rw [List.map_flatMap, ← join_map_join]
  apply congrArg
  apply List.map_congr_left
  intro pe _
  rw [List.map_map]
  rfl

theorem fst_ge_of_mem_enumFrom {α : Type} :
    ∀ (i : ℕ) (l : List α) (b : ℕ × α), b ∈ l.enumFrom i → i ≤ b.1
  | _, [], b, h => by simp at h
  | i, x :: l, b, h => by
    rw [List.enumFrom_cons] at h
    rcases List.mem_cons.mp h with rfl | hm
    · exact Nat.le_refl i
    · have := fst_ge_of_mem_enumFrom (i + 1) l b hm
      omega

theorem enumFrom_pairwise_fst {α : Type} :
    ∀ (i : ℕ) (l : List α), (l.enumFrom i).Pairwise (fun a b => a.1 < b.1)
  | _, [] => List.Pairwise.nil
  | i, x :: l => by
    rw [List.enumFrom_cons]
    refine List.Pairwise.cons ?_ (enumFrom_pairwise_fst (i + 1) l)
    intro b hb
    have := fst_ge_of_mem_enumFrom (i + 1) l b hb
    show i < b.1
    omega

/-- When every per-partition list is strictly increasing, the emission
order of `_format_missing_part` is strictly ascending by `(pid, replica)`. -/
theorem missingPairs_sorted (marr : List (List ℤ)) (h : marrSorted marr) :
    (missingPairs marr).Pairwise pairLt := by
  unfold missingPairs
  rw [show (marr.enum.flatMap fun pe => pe.2.map fun ridx => (pe.1, ridx)) =
      ((marr.enum.map fun pe => pe.2.map fun ridx => (pe.1, ridx)).flatten) from rfl]
  rw [List.pairwise_flatten]
  constructor
  · intro l' hl'
    obtain ⟨pe, hpe, rfl⟩ := List.mem_map.mp hl'
    have hsorted : pe.2.Pairwise (fun a b : ℤ => a < b) :=
      h pe.2 (List.snd_mem_of_mem_enumFrom (by simpa [List.enum] using hpe))
    refine List.Pairwise.map _ ?_ hsorted
    intro a b hab
    exact Or.inr ⟨rfl, hab⟩
  · have hpf : marr.enum.Pairwise (fun a b : ℕ × List ℤ => a.1 < b.1) := by
      have := enumFrom_pairwise_fst 0 marr
      simpa [List.enum] using this
    refine List.Pairwise.map _ ?_ hpf
    intro pe₁ pe₂ hlt x hx y hy
    obtain ⟨r₁, _, rfl⟩ := List.mem_map.mp hx
    obtain ⟨r₂, _, rfl⟩ := List.mem_map.mp hy
    exact Or.inl hlt

theorem getD_mem_of_lt (marr : List (List ℤ)) (idx : ℕ) (h : idx < marr.length) :
    marr.getD idx [] ∈ marr := by
  rw [List.getD_eq_getElem?_getD, List.getElem?_eq_getElem h]
  simp only [Option.getD_some]
  exact List.getElem_mem h

theorem initMissing_sorted (rf : ℤ) : marrSorted (initMissing rf) := by
  intro part hpart
  unfold initMissing at hpart
  rw [List.eq_of_mem_replicate hpart]
  refine List.Pairwise.map _ ?_ (List.pairwise_lt_range _)
  intro a b hab
  exact Int.ofNat_lt.mpr hab

theorem removeStep_sorted (marr : List (List ℤ)) (pid pindex : ℤ)
    (h : marrSorted marr) : marrSorted (removeStep marr pid pindex) := by
  unfold removeStep
  by_cases hg : -(marr.length : ℤ) ≤ pid ∧ pid < (marr.length : ℤ)
  · rw [if_pos hg]
    show marrSorted (marr.set (if pid < 0 then pid + (marr.length : ℤ) else pid).toNat
      ((marr.getD (if pid < 0 then pid + (marr.length : ℤ) else pid).toNat []).erase
        pindex))
    intro part hpart
    rcases List.mem_or_eq_of_mem_set hpart with hm | rfl
    · exact h part hm
    · have hidx : (if pid < 0 then pid + (marr.length : ℤ) else pid).toNat <
          marr.length := by
        rcases hg with ⟨h₁, h₂⟩
        by_cases hneg : pid < 0
        · rw [if_pos hneg]; omega
        · rw [if_neg hneg]; omega
      exact (h _ (getD_mem_of_lt marr _ hidx)).sublist (List.erase_sublist _ _)
  · rw [if_neg hg]
    exact h

theorem mem_aset (k : String) (v : α) :
    ∀ l : List (String × α), ∀ p ∈ aset k v l, p ∈ l ∨ p = (k, v)
  | [], p, h => by simp [aset] at h
  | (k', w) :: rest, p, h => by
    unfold aset at h
    by_cases hk : k' = k
    · rw [if_pos hk] at h
      rcases List.mem_cons.mp h with rfl | hm
      · right
        rw [hk]
      · left
        exact List.mem_cons_of_mem _ hm
    · rw [if_neg hk] at h
      rcases List.mem_cons.mp h with rfl | hm
      · left
        exact List.mem_cons_self _ _
      · rcases mem_aset k v rest p hm with h₁ | h₁
        · left
          exact List.mem_cons_of_mem _ h₁
        · right
          exact h₁

theorem mem_of_alook_some (k : String) :
    ∀ (l : List (String × α)) (v : α), alook k l = some v → (k, v) ∈ l
  | [], v, h => by cases h
  | (k', w) :: rest, v, h => by
    unfold alook at h
    by_cases hk : k' = k
    · rw [if_pos hk] at h
      cases h
      rw [← hk]
      exact List.mem_cons_self _ _
    · rw [if_neg hk] at h
      exact List.mem_cons_of_mem _ (mem_of_alook_some k rest v h)

theorem initNsMissing_self_isSome (nsInfo : List (String × NsEntry))
    (nm nm' : List (String × List (List ℤ))) (ns : String)
    (h : initNsMissing nsInfo nm ns = some nm') : (alook ns nm').isSome := by
  unfold initNsMissing at h
  cases h₁ : alook ns nm with
  | some v =>
    rw [h₁] at h
    cases h
    rw [h₁]
    rfl
  | none =>
    rw [h₁] at h
    cases h₂ : alook ns nsInfo with
    | none => rw [h₂] at h; cases h
    | some e =>
      rw [h₂] at h
      cases h
      rw [alook_append_right _ _ _ h₁]
      simp [alook]

/-- The sync block only ever erases from the missing structure, so strict
sortedness of every per-partition list is preserved row by row. -/
theorem stepRow_nsMissing_sorted (nsInfo : List (String × NsEntry)) (st st' : AState)
    (row : PRow) (h : stepRow nsInfo st row = some st')
    (hs : ∀ pr ∈ st.nsMissing, marrSorted pr.2) :
    ∀ pr ∈ st'.nsMissing, marrSorted pr.2 := by
  unfold stepRow at h
  cases hnm : initNsMissing nsInfo st.nsMissing row.ns with
  | none => rw [hnm] at h; cases h
  | some nm' =>
    rw [hnm] at h
    have hs' : ∀ pr ∈ nm', marrSorted pr.2 := by
      unfold initNsMissing at hnm
      cases h₁ : alook row.ns st.nsMissing with
      | some v =>
        rw [h₁] at hnm
        cases hnm
        exact hs
      | none =>
        rw [h₁] at hnm
        cases h₂ : alook row.ns nsInfo with
        | none => rw [h₂] at hnm; cases hnm
        | some e =>
          rw [h₂] at hnm
          cases hnm
          intro pr hpr
          rcases List.mem_append.mp hpr with hl | hr
          · exact hs pr hl
          · have hpr' : pr = (row.ns, initMissing e.replFactor) := by simpa using hr
            rw [hpr']
            exact initMissing_sorted e.replFactor
    by_cases hS : row.state = "S"
    · simp only [if_pos hS] at h
      cases h
      intro pr hpr
      rcases mem_aset _ _ nm' pr hpr with hm | hpr'
      · exact hs' pr hm
      · rw [hpr']
        have hmarr : marrSorted ((alook row.ns nm').getD []) := by
          cases hml : alook row.ns nm' with
          | none => intro part hpart; simp at hpart
          | some m => exact hs' (row.ns, m) (mem_of_alook_some _ nm' m hml)
        unfold tryS
        cases alook row.ns nsInfo with
        | none => exact hmarr
        | some e => exact removeStep_sorted _ _ _ hmarr
    · simp only [if_neg hS] at h
      cases h
      exact hs'

theorem processRows_nsMissing_sorted (nsInfo : List (String × NsEntry)) :
    ∀ (rows : List PRow) (st st' : AState),
      processRows nsInfo st rows = some st' →
      (∀ pr ∈ st.nsMissing, marrSorted pr.2) →
      ∀ pr ∈ st'.nsMissing, marrSorted pr.2
  | [], st, st', h, hs => by
    have : st' = st := by simp [processRows, List.foldlM] at h; exact h.symm
    subst this
    exact hs
  | r :: rows, st, st', h, hs => by
    rw [processRows, List.foldlM_cons] at h
    cases h₁ : stepRow nsInfo st r with
    | none => rw [h₁] at h; exact absurd h (by simp)
    | some st₁ =>
      rw [h₁] at h
      exact processRows_nsMissing_sorted nsInfo rows st₁ st' h
        (stepRow_nsMissing_sorted nsInfo st st₁ r h₁ hs)

theorem getPmapData_nsMissing_sorted (nsInfo : List (String × NsEntry)) :
    ∀ (pmapInfo : List (String × Except String (List PRow)))
      (acc : List (String × List (String × NsReport)) × List (String × List (List ℤ)))
      (pd : List (String × List (String × NsReport)))
      (miss : List (String × List (List ℤ))),
      pmapInfo.foldlM (stepNode nsInfo) acc = some (pd, miss) →
      (∀ pr ∈ acc.2, marrSorted pr.2) →
      ∀ pr ∈ miss, marrSorted pr.2
  | [], acc, pd, miss, h, hs => by
    have : acc = (pd, miss) := by simp [List.foldlM] at h; exact h
    subst this
    exact hs
  | (nk, res) :: rest, acc, pd, miss, h, hs => by
    rw [List.foldlM_cons] at h
    cases res with
    | error msg =>
      have hstep : stepNode nsInfo acc (nk, .error msg) = some acc := rfl
      rw [hstep] at h
      exact getPmapData_nsMissing_sorted nsInfo rest acc pd miss h hs
    | ok rows =>
      have h0 : stepNode nsInfo acc (nk, .ok rows) =
          match processRows nsInfo ⟨[], acc.2⟩ rows with
          | none => none
          | some st => some (acc.1 ++ [(nk, st.nodePmap)], st.nsMissing) := rfl
      rw [h0] at h
      cases hpr : processRows nsInfo ⟨[], acc.2⟩ rows with
      | none => rw [hpr] at h; exact absurd h (by simp)
      | some st =>
        rw [hpr] at h
        exact getPmapData_nsMissing_sorted nsInfo rest
          (acc.1 ++ [(nk, st.nodePmap)], st.nsMissing) pd miss h
          (processRows_nsMissing_sorted nsInfo rows ⟨[], acc.2⟩ st hpr hs)

/-- Every namespace ever entered into `ns_missing_part` was looked up
successfully in `ns_info` when it was inserted. -/
theorem stepRow_nsMissing_known (nsInfo : List (String × NsEntry)) (st st' : AState)
    (row : PRow) (h : stepRow nsInfo st row = some st')
    (hk : ∀ pr ∈ st.nsMissing, (alook pr.1 nsInfo).isSome) :
    ∀ pr ∈ st'.nsMissing, (alook pr.1 nsInfo).isSome := by
  unfold stepRow at h
  cases hnm : initNsMissing nsInfo st.nsMissing row.ns with
  | none => rw [hnm] at h; cases h
  | some nm' =>
    rw [hnm] at h
    have hk' : ∀ pr ∈ nm', (alook pr.1 nsInfo).isSome := by
      unfold initNsMissing at hnm
      cases h₁ : alook row.ns st.nsMissing with
      | some v =>
        rw [h₁] at hnm
        cases hnm
        exact hk
      | none =>
        rw [h₁] at hnm
        cases h₂ : alook row.ns nsInfo with
        | none => rw [h₂] at hnm; cases hnm
        | some e =>
          rw [h₂] at hnm
          cases hnm
          intro pr hpr
          rcases List.mem_append.mp hpr with hl | hr
          · exact hk pr hl
          · have hpr' : pr = (row.ns, initMissing e.replFactor) := by simpa using hr
            rw [hpr', h₂]
            rfl
    by_cases hS : row.state = "S"
    · simp only [if_pos hS] at h
      cases h
      intro pr hpr
      rcases mem_aset _ _ nm' pr hpr with hm | hpr'
      · exact hk' pr hm
      · rw [hpr']
        obtain ⟨m, hm⟩ := Option.isSome_iff_exists.mp
          (initNsMissing_self_isSome nsInfo st.nsMissing nm' row.ns hnm)
        exact hk' (row.ns, m) (mem_of_alook_some _ nm' m hm)
    · simp only [if_neg hS] at h
      cases h
      exact hk'

theorem processRows_nsMissing_known (nsInfo : List (String × NsEntry)) :
    ∀ (rows : List PRow) (st st' : AState),
      processRows nsInfo st rows = some st' →
      (∀ pr ∈ st.nsMissing, (alook pr.1 nsInfo).isSome) →
      ∀ pr ∈ st'.nsMissing, (alook pr.1 nsInfo).isSome
  | [], st, st', h, hk => by
    have : st' = st := by simp [processRows, List.foldlM] at h; exact h.symm
    subst this
    exact hk
  | r :: rows, st, st', h, hk => by
    rw [processRows, List.foldlM_cons] at h
    cases h₁ : stepRow nsInfo st r with
    | none => rw [h₁] at h; exact absurd h (by simp)
    | some st₁ =>
      rw [h₁] at h
      exact processRows_nsMissing_known nsInfo rows st₁ st' h
        (stepRow_nsMissing_known nsInfo st st₁ r h₁ hk)

theorem getPmapData_nsMissing_known (nsInfo : List (String × NsEntry)) :
    ∀ (pmapInfo : List (String × Except String (List PRow)))
      (acc : List (String × List (String × NsReport)) × List (String × List (List ℤ)))
      (pd : List (String × List (String × NsReport)))
      (miss : List (String × List (List ℤ))),
      pmapInfo.foldlM (stepNode nsInfo) acc = some (pd, miss) →
      (∀ pr ∈ acc.2, (alook pr.1 nsInfo).isSome) →
      ∀ pr ∈ miss, (alook pr.1 nsInfo).isSome
  | [], acc, pd, miss, h, hk => by
    have : acc = (pd, miss) := by simp [List.foldlM] at h; exact h
    subst this
    exact hk
  | (nk, res) :: rest, acc, pd, miss, h, hk => by
    rw [List.foldlM_cons] at h
    cases res with
    | error msg =>
      have hstep : stepNode nsInfo acc (nk, .error msg) = some acc := rfl
      rw [hstep] at h
      exact getPmapData_nsMissing_known nsInfo rest acc pd miss h hk
    | ok rows =>
      have h0 : stepNode nsInfo acc (nk, .ok rows) =
          match processRows nsInfo ⟨[], acc.2⟩ rows with
          | none => none
          | some st => some (acc.1 ++ [(nk, st.nodePmap)], st.nsMissing) := rfl
      rw [h0] at h
      cases hpr : processRows nsInfo ⟨[], acc.2⟩ rows with
      | none => rw [hpr] at h; exact absurd h (by simp)
      | some st =>
        rw [hpr] at h
        exact getPmapData_nsMissing_known nsInfo rest
          (acc.1 ++ [(nk, st.nodePmap)], st.nsMissing) pd miss h
          (processRows_nsMissing_known nsInfo rows ⟨[], acc.2⟩ st hpr hk)

theorem aset_keys (k : String) (v : α) :
    ∀ l : List (String × α), (aset k v l).map Prod.fst = l.map Prod.fst
  | [] => rfl
  | (k', w) :: rest => by
    unfold aset
    by_cases hk : k' = k
    · rw [if_pos hk]
      simp
    · rw [if_neg hk]
      simp [aset_keys k v rest]

theorem not_mem_keys_of_alook_none (k : String) :
    ∀ l : List (String × α), alook k l = none → k ∉ l.map Prod.fst
  | [], _ => by simp
  | (k', w) :: rest, h => by
    unfold alook at h
    by_cases hk : k' = k
    · rw [if_pos hk] at h
      cases h
    · rw [if_neg hk] at h
      intro hc
      rcases List.mem_cons.mp hc with heq | hmem
      · exact hk heq.symm
      · exact not_mem_keys_of_alook_none k rest h hmem

theorem alook_of_mem_nodup :
    ∀ l : List (String × α), (l.map Prod.fst).Nodup →
      ∀ k v, (k, v) ∈ l → alook k l = some v
  | [], _, k, v, h => by simp at h
  | (k', w) :: rest, hn, k, v, h => by
    simp only [List.map_cons, List.nodup_cons] at hn
    rcases List.mem_cons.mp h with heq | hmem
    · cases heq
      unfold alook
      rw [if_pos rfl]
    · have hk : k' ≠ k := by
        intro hkk
        subst hkk
        exact hn.1 (List.mem_map.mpr ⟨(k', v), hmem, rfl⟩)
      unfold alook
      rw [if_neg hk]
      exact alook_of_mem_nodup rest hn.2 k v hmem

theorem initNodePmap_keys_nodup (np : List (String × NsReport)) (ns : String)
    (h : (np.map Prod.fst).Nodup) :
    ((initNodePmap np ns).map Prod.fst).Nodup := by
  unfold initNodePmap
  cases hl : alook ns np with
  | some v => exact h
  | none =>
    rw [List.map_append, List.nodup_append]
    refine ⟨h, List.nodup_singleton ns, ?_⟩
    intro a ha hb
    simp only [List.map_cons, List.map_nil, List.mem_singleton] at hb
    rw [hb] at ha
    exact not_mem_keys_of_alook_none ns np hl ha

theorem stepRow_nodePmap_nodup (nsInfo : List (String × NsEntry)) (st st' : AState)
    (row : PRow) (h : stepRow nsInfo st row = some st')
    (hn : (st.nodePmap.map Prod.fst).Nodup) :
    (st'.nodePmap.map Prod.fst).Nodup := by
  obtain ⟨nm', _, hshape⟩ := stepRow_shape nsInfo st st' row h
  rcases hshape with ⟨v, m, rfl⟩ | rfl
  · show ((aset row.ns v (initNodePmap st.nodePmap row.ns)).map Prod.fst).Nodup
    rw [aset_keys]
    exact initNodePmap_keys_nodup st.nodePmap row.ns hn
  · exact initNodePmap_keys_nodup st.nodePmap row.ns hn

theorem processRows_nodePmap_nodup (nsInfo : List (String × NsEntry)) :
    ∀ (rows : List PRow) (st st' : AState),
      processRows nsInfo st rows = some st' →
      (st.nodePmap.map Prod.fst).Nodup → (st'.nodePmap.map Prod.fst).Nodup
  | [], st, st', h, hn => by
    have : st' = st := by simp [processRows, List.foldlM] at h; exact h.symm
    subst this
    exact hn
  | r :: rows, st, st', h, hn => by
    rw [processRows, List.foldlM_cons] at h
    cases h₁ : stepRow nsInfo st r with
    | none => rw [h₁] at h; exact absurd h (by simp)
    | some st₁ =>
      rw [h₁] at h
      exact processRows_nodePmap_nodup nsInfo rows st₁ st' h
        (stepRow_nodePmap_nodup nsInfo st st₁ r h₁ hn)

theorem showPmapRows_mem (out : List (String × List (String × NsReportFinal))) :
    ∀ row ∈ showPmapRows out, ∃ p ∈ out, ∃ q ∈ p.2,
      row = ⟨p.1, q.1, q.2.priIndex, q.2.secIndex, q.2.missingPart,
        q.2.masterDisc, q.2.replicaDisc⟩ := by
  intro row hrow
  unfold showPmapRows at hrow
  rw [List.mem_flatMap] at hrow
  obtain ⟨p, hp, hrow⟩ := hrow
  rw [List.mem_map] at hrow
  obtain ⟨q, hq, hget⟩ := hrow
  exact ⟨p, hp, q, hq, hget.symm⟩

/-- **C6.** (amended) Emission ordering of the partition report: the
`missing_part` string lists its `"pid:S:ridx"` entries in strictly
ascending lexicographic order of `(pid, ridx)`, but the
`master_disc_part` and `replica_disc_part` lists are emitted verbatim in
row-encounter order — the analyzer never sorts them. -/
theorem pmap_emission_order (nsInfo : List (String × NsEntry))
    (pmapInfo : List (String × Except String (List PRow)))
    (out : List (String × List (String × NsReportFinal)))
    (h : pmapAnalysis nsInfo pmapInfo = some out) :
    ∀ row ∈ showPmapRows out,
      (∃ pairs : List (ℕ × ℤ), List.Pairwise pairLt pairs ∧
        row.missingPart = (String.join (pairs.map fun pr =>
          toString pr.1 ++ ":S:" ++ toString pr.2 ++ ",")).dropRight 1) ∧
      (∃ rows e, (row.node, Except.ok rows) ∈ pmapInfo ∧
        alook row.nsName nsInfo = some e ∧
        row.masterDisc = (nsRows row.nsName rows).filterMap (discMasterPid e) ∧
        row.replicaDisc = (nsRows row.nsName rows).filterMap (discReplicaPid e)) := by
  intro row hrow
  obtain ⟨p, hp, q, hq, hrw⟩ := showPmapRows_mem out row hrow
  have hrnode : row.node = p.1 := by rw [hrw]
  have hrns : row.nsName = q.1 := by rw [hrw]
  have hrmp : row.missingPart = q.2.missingPart := by rw [hrw]
  have hrmd : row.masterDisc = q.2.masterDisc := by rw [hrw]
  have hrrd : row.replicaDisc = q.2.replicaDisc := by rw [hrw]
  unfold pmapAnalysis at h
  cases hpm : getPmapData nsInfo pmapInfo with
  | none => rw [hpm] at h; cases h
  | some pm =>
    rw [hpm] at h
    have hf2 := finalizePmap_forall2 pm.1 pm.2 out h
    obtain ⟨p₀, hp₀, hP1, hinner⟩ := forall2_mem_right hf2 p hp
    obtain ⟨q₀, hq₀, hQ1, hrel⟩ := forall2_mem_right hinner q hq
    obtain ⟨hpri, hsec, hmd, hrd, marr, hmarr, hmp⟩ := hrel
    have hfold : pmapInfo.foldlM (stepNode nsInfo) ([], []) = some (pm.1, pm.2) := hpm
    constructor
    · refine ⟨missingPairs marr, ?_, ?_⟩
      · apply missingPairs_sorted
        have hsorted := getPmapData_nsMissing_sorted nsInfo pmapInfo ([], []) pm.1 pm.2
          hfold (by intro pr hpr; simp at hpr)
        exact hsorted (q₀.1, marr) (mem_of_alook_some q₀.1 pm.2 marr hmarr)
      · rw [hrmp, hmp]
        exact formatMissingPart_eq_pairs marr
    · rcases getPmapData_pd_mem nsInfo pmapInfo ([], []) pm.1 pm.2 hfold p₀ hp₀ with h₀ | h₀
      · simp at h₀
      · obtain ⟨rows, m₀, st, hmem, hprs, hval⟩ := h₀
        have hnodup : (st.nodePmap.map Prod.fst).Nodup :=
          processRows_nodePmap_nodup nsInfo rows ⟨[], m₀⟩ st hprs (by simp)
        have hq₀' : (q₀.1, q₀.2) ∈ st.nodePmap := by
          rw [← hval]
          simpa using hq₀
        have halq : alook q₀.1 st.nodePmap = some q₀.2 :=
          alook_of_mem_nodup st.nodePmap hnodup q₀.1 q₀.2 hq₀'
        have hknown : (alook q₀.1 nsInfo).isSome := by
          have hk := getPmapData_nsMissing_known nsInfo pmapInfo ([], []) pm.1 pm.2 hfold
            (by intro pr hpr; simp at hpr)
          exact hk (q₀.1, marr) (mem_of_alook_some q₀.1 pm.2 marr hmarr)
        obtain ⟨e, he⟩ := Option.isSome_iff_exists.mp hknown
        obtain ⟨hnp, _⟩ := processRows_spec nsInfo q₀.1 e he rows ⟨[], m₀⟩ st hprs
        by_cases hc : alook q₀.1 (⟨[], m₀⟩ : AState).nodePmap = none ∧
            nsRows q₀.1 rows = []
        · rw [if_pos hc, halq] at hnp
          cases hnp
        · rw [if_neg hc, halq] at hnp
          have hq₀2 : q₀.2 = (nsRows q₀.1 rows).foldl (repRowStep e)
              ((alook q₀.1 (⟨[], m₀⟩ : AState).nodePmap).getD emptyReport) :=
            Option.some.inj hnp
          refine ⟨rows, e, ?_, ?_, ?_, ?_⟩
          · rw [hrnode, hP1]
            exact hmem
          · rw [hrns, hQ1]
            exact he
          · rw [hrmd, hrns, hQ1, hmd, hq₀2, repFold_masterDisc]
            rfl
          · rw [hrrd, hrns, hQ1, hrd, hq₀2, repFold_replicaDisc]
            rfl

def w6entry : NsEntry := ⟨2000, 0, 0, 1024, 1024⟩

def w6pmapInfo : List (String × Except String (List PRow)) :=
  [("n1", Except.ok [(⟨"t", 5, "S", 0, 0⟩ : PRow), (⟨"t", 3, "S", 0, 0⟩ : PRow)])]

theorem forall2_mem_left {α β : Type} {R : α → β → Prop} :
    ∀ {l : List α} {l' : List β}, List.Forall₂ R l l' → ∀ a ∈ l, ∃ b ∈ l', R a b := by
  intro l l' hf
  induction hf with
  | nil => intro a ha; simp at ha
  | @cons a b l l' hab _ ih =>
    intro c hc
    rcases List.mem_cons.mp hc with rfl | hc₀
    · exact ⟨b, by simp, hab⟩
    · obtain ⟨y, hy, hR⟩ := ih c hc₀
      exact ⟨y, by simp [hy], hR⟩

theorem showPmapRows_mem_intro (out : List (String × List (String × NsReportFinal)))
    (p : String × List (String × NsReportFinal)) (hp : p ∈ out)
    (q : String × NsReportFinal) (hq : q ∈ p.2) :
    (⟨p.1, q.1, q.2.priIndex, q.2.secIndex, q.2.missingPart, q.2.masterDisc,
      q.2.replicaDisc⟩ : PmapViewRow) ∈ showPmapRows out := by
  unfold showPmapRows
  rw [List.mem_flatMap]
  exact ⟨p, hp, List.mem_map.mpr ⟨q, hq, rfl⟩⟩

theorem getPmapData_single (nsInfo : List (String × NsEntry)) (n : String)
    (rows : List PRow) (st : AState)
    (h : processRows nsInfo ⟨[], []⟩ rows = some st) :
    getPmapData nsInfo [(n, Except.ok rows)] = some ([(n, st.nodePmap)], st.nsMissing) := by
  unfold getPmapData
  rw [List.foldlM_cons]
  have hstep : stepNode nsInfo ([], []) (n, .ok rows) =
      some ([(n, st.nodePmap)], st.nsMissing) := by
    show (match processRows nsInfo ⟨[], ([] : List (String × List (List ℤ)))⟩ rows with
      | none => none
      | some st => some (([] : List (String × List (String × NsReport))) ++
          [(n, st.nodePmap)], st.nsMissing)) =
      some ([(n, st.nodePmap)], st.nsMissing)
    rw [h]
    simp
  rw [hstep]
  rfl

/-- On the two-row input with pids `5` then `3` (both triggering a master
discrepancy), the analysis succeeds and the emitted report for node `n1`,
namespace `t` has `master_disc_part = [5, 3]`. -/
theorem w6_analysis : ∃ out,
    pmapAnalysis [("t", w6entry)] w6pmapInfo = some out ∧
    ∃ P ∈ out, ∃ Q ∈ P.2, Q.1 = "t" ∧ Q.2.masterDisc = [5, 3] := by
  have hok : ∀ node res, (node, res) ∈ w6pmapInfo → ∀ rows, res = .ok rows →
      ∀ r ∈ rows, (alook r.ns [("t", w6entry)]).isSome := by
    intro node res hmem rows hres r hr
    simp [w6pmapInfo] at hmem
    obtain ⟨hnode, hresv⟩ := hmem
    rw [hresv] at hres
    cases hres
    simp at hr
    rcases hr with rfl | rfl
    all_goals rfl
  obtain ⟨pd, miss, out, hgp, hfin, hana⟩ := pmapAnalysis_total _ w6pmapInfo hok
  obtain ⟨st, hst⟩ := processRows_total [("t", w6entry)]
    [(⟨"t", 5, "S", 0, 0⟩ : PRow), (⟨"t", 3, "S", 0, 0⟩ : PRow)] ⟨[], []⟩ (by
      intro r hr
      simp at hr
      rcases hr with rfl | rfl
      all_goals rfl)
  have hgp' := getPmapData_single [("t", w6entry)] "n1"
    [(⟨"t", 5, "S", 0, 0⟩ : PRow), (⟨"t", 3, "S", 0, 0⟩ : PRow)] st hst
  have hpair : (pd, miss) = ([("n1", st.nodePmap)], st.nsMissing) :=
    Option.some.inj (hgp.symm.trans hgp')
  have hpd : pd = [("n1", st.nodePmap)] := congrArg Prod.fst hpair
  obtain ⟨hnp, hnm⟩ := processRows_spec [("t", w6entry)] "t" w6entry rfl
    [(⟨"t", 5, "S", 0, 0⟩ : PRow), (⟨"t", 3, "S", 0, 0⟩ : PRow)] ⟨[], []⟩ st hst
  rw [show nsRows "t" [(⟨"t", 5, "S", 0, 0⟩ : PRow), (⟨"t", 3, "S", 0, 0⟩ : PRow)] =
      [(⟨"t", 5, "S", 0, 0⟩ : PRow), (⟨"t", 3, "S", 0, 0⟩ : PRow)] from rfl] at hnp
  rw [if_neg (by intro hx; exact absurd hx.2 (by simp))] at hnp
  rw [show ([(⟨"t", 5, "S", 0, 0⟩ : PRow), (⟨"t", 3, "S", 0, 0⟩ : PRow)]).foldl
      (repRowStep w6entry)
      ((alook "t" (⟨[], []⟩ : AState).nodePmap).getD emptyReport) =
      (⟨2, 0, [5, 3], []⟩ : NsReport) from by decide] at hnp
  have hmem₀ : ("t", (⟨2, 0, [5, 3], []⟩ : NsReport)) ∈ st.nodePmap :=
    mem_of_alook_some "t" st.nodePmap _ hnp
  have hf2 := finalizePmap_forall2 pd miss out hfin
  obtain ⟨P, hP, hP1, hinner⟩ := forall2_mem_left hf2 ("n1", st.nodePmap)
    (by rw [hpd]; simp)
  obtain ⟨Q, hQ, hQ1, hfr⟩ := forall2_mem_left hinner
    ("t", (⟨2, 0, [5, 3], []⟩ : NsReport)) hmem₀
  refine ⟨out, hana, P, hP, Q, hQ, hQ1, ?_⟩
  rw [hfr.2.2.1]

/-- Counterexample to the second half of C6: the pids `5` and `3` are
appended to `master_disc_part` in row order and emitted that way — the
emitted list `[5, 3]` is not sorted ascending. -/
theorem disc_part_emitted_unsorted :
    ∃ out, pmapAnalysis [("t", w6entry)] w6pmapInfo = some out ∧
      ∃ row ∈ showPmapRows out, row.masterDisc = [5, 3] ∧
        ¬ List.Pairwise (fun a b : ℤ => a ≤ b) row.masterDisc := by
  obtain ⟨out, hana, P, hP, Q, hQ, hQ1, hmd⟩ := w6_analysis
  refine ⟨out, hana, ⟨P.1, Q.1, Q.2.priIndex, Q.2.secIndex, Q.2.missingPart,
    Q.2.masterDisc, Q.2.replicaDisc⟩, showPmapRows_mem_intro out P hP Q hQ, hmd, ?_⟩
  intro hcon
  rw [show (⟨P.1, Q.1, Q.2.priIndex, Q.2.secIndex, Q.2.missingPart, Q.2.masterDisc,
      Q.2.replicaDisc⟩ : PmapViewRow).masterDisc = Q.2.masterDisc from rfl, hmd] at hcon
  have h53 := (List.pairwise_cons.mp hcon).1 3 (by simp)
  omega

theorem pmap_emission_order_witness :
    ∃ out, pmapAnalysis [("t", w6entry)] w6pmapInfo = some out ∧
      ∀ row ∈ showPmapRows out,
        (∃ pairs : List (ℕ × ℤ), List.Pairwise pairLt pairs ∧
          row.missingPart = (String.join (pairs.map fun pr =>
            toString pr.1 ++ ":S:" ++ toString pr.2 ++ ",")).dropRight 1) ∧
        (∃ rows e, (row.node, Except.ok rows) ∈ w6pmapInfo ∧
          alook row.nsName [("t", w6entry)] = some e ∧
          row.masterDisc = (nsRows row.nsName rows).filterMap (discMasterPid e) ∧
          row.replicaDisc = (nsRows row.nsName rows).filterMap (discReplicaPid e)) := by
  obtain ⟨out, hana, _⟩ := w6_analysis
  exact ⟨out, hana, pmap_emission_order [("t", w6entry)] w6pmapInfo out hana⟩

/-- For a single-node input whose rows all belong to one known namespace,
the analysis succeeds and *every* emitted report is exactly the row fold —
both an existence and a uniqueness form. -/
theorem single_node_reports_pinned (nsInfo : List (String × NsEntry)) (n : String)
    (rows : List PRow) (ns : String) (e : NsEntry) (rep : NsReport)
    (he : alook ns nsInfo = some e)
    (hnsall : ∀ r ∈ rows, r.ns = ns)
    (hne : rows ≠ [])
    (hrep : rows.foldl (repRowStep e) emptyReport = rep) :
    ∃ out, pmapAnalysis nsInfo [(n, Except.ok rows)] = some out ∧
      (∃ P ∈ out, ∃ Q ∈ P.2, Q.1 = ns ∧ Q.2.priIndex = rep.priIndex ∧
        Q.2.secIndex = rep.secIndex ∧ Q.2.masterDisc = rep.masterDisc ∧
        Q.2.replicaDisc = rep.replicaDisc) ∧
      (∀ P ∈ out, ∀ Q ∈ P.2, Q.1 = ns ∧ Q.2.priIndex = rep.priIndex ∧
        Q.2.secIndex = rep.secIndex ∧ Q.2.masterDisc = rep.masterDisc ∧
        Q.2.replicaDisc = rep.replicaDisc) := by
  have hok : ∀ r ∈ rows, (alook r.ns nsInfo).isSome := by
    intro r hr
    rw [hnsall r hr, he]
    rfl
  have hoknode : ∀ (node : String) (res : Except String (List PRow)),
      (node, res) ∈ [(n, Except.ok rows)] → ∀ rows', res = .ok rows' →
      ∀ r ∈ rows', (alook r.ns nsInfo).isSome := by
    intro node res hmem rows' hres r hr
    simp at hmem
    obtain ⟨_, hresv⟩ := hmem
    rw [hresv] at hres
    cases hres
    exact hok r hr
  obtain ⟨pd, miss, out, hgp, hfin, hana⟩ := pmapAnalysis_total nsInfo [(n, Except.ok rows)]
    hoknode
  obtain ⟨st, hst⟩ := processRows_total nsInfo rows ⟨[], []⟩ hok
  have hgp' := getPmapData_single nsInfo n rows st hst
  have hpair : (pd, miss) = ([(n, st.nodePmap)], st.nsMissing) :=
    Option.some.inj (hgp.symm.trans hgp')
  have hpd : pd = [(n, st.nodePmap)] := congrArg Prod.fst hpair
  obtain ⟨hnp, _⟩ := processRows_spec nsInfo ns e he rows ⟨[], []⟩ st hst
  have hnsrows : nsRows ns rows = rows := by
    unfold nsRows
    rw [List.filter_eq_self]
    intro r hr
    simp [hnsall r hr]
  rw [hnsrows, if_neg (by intro hx; exact hne hx.2)] at hnp
  rw [show (alook ns (⟨[], []⟩ : AState).nodePmap).getD emptyReport = emptyReport
    from rfl] at hnp
  rw [hrep] at hnp
  have hnodup : (st.nodePmap.map Prod.fst).Nodup :=
    processRows_nodePmap_nodup nsInfo rows ⟨[], []⟩ st hst (by simp)
  have hf2 := finalizePmap_forall2 pd miss out hfin
  refine ⟨out, hana, ?_, ?_⟩
  · obtain ⟨P, hP, hP1, hinner⟩ := forall2_mem_left hf2 (n, st.nodePmap)
      (by rw [hpd]; simp)
    obtain ⟨Q, hQ, hQ1, hfr⟩ := forall2_mem_left hinner (ns, rep)
      (mem_of_alook_some ns st.nodePmap rep hnp)
    exact ⟨P, hP, Q, hQ, hQ1, hfr.1, hfr.2.1, hfr.2.2.1, hfr.2.2.2.1⟩
  · intro P hP Q hQ
    obtain ⟨p₀, hp₀, hP1, hinner⟩ := forall2_mem_right hf2 P hP
    obtain ⟨q₀, hq₀, hQ1, hrel⟩ := forall2_mem_right hinner Q hQ
    have hp₀v : p₀ = (n, st.nodePmap) := by
      rw [hpd] at hp₀
      simpa using hp₀
    have hq₀' : (q₀.1, q₀.2) ∈ st.nodePmap := by
      rw [hp₀v] at hq₀
      simpa using hq₀
    have halq : alook q₀.1 st.nodePmap = some q₀.2 :=
      alook_of_mem_nodup st.nodePmap hnodup q₀.1 q₀.2 hq₀'
    have hq₀ns : q₀.1 = ns := by
      rcases processRows_pmap_origin nsInfo rows ⟨[], []⟩ st hst q₀.1
          (by rw [halq]; rfl) with hc | hc
      · simp [alook] at hc
      · obtain ⟨r, hr, hrns⟩ := hc
        rw [← hrns]
        exact hnsall r hr
    have hq₀rep : q₀.2 = rep := by
      rw [hq₀ns] at halq
      exact Option.some.inj (halq.symm.trans hnp)
    obtain ⟨h1, h2, h3, h4, _⟩ := hrel
    rw [hq₀rep] at h1 h2 h3 h4
    exact ⟨hQ1.trans hq₀ns, h1, h2, h3, h4⟩

def w7entry : NsEntry := ⟨0, 0, 1, 1024, 1024⟩

/-- Counterexample to C7: a sync row with partition id `4096` (outside
`[0, 4096)`) is *not* inert — with it the node's report for namespace `t`
has `pri_index = 2`, without it every report has `pri_index = 1`. -/
theorem oob_pid_not_inert :
    ∃ out₁ out₂,
      pmapAnalysis [("t", w7entry)]
        [("n1", Except.ok [(⟨"t", 0, "S", 0, 0⟩ : PRow),
          (⟨"t", 4096, "S", 0, 0⟩ : PRow)])] = some out₁ ∧
      pmapAnalysis [("t", w7entry)]
        [("n1", Except.ok [(⟨"t", 0, "S", 0, 0⟩ : PRow)])] = some out₂ ∧
      (∃ P ∈ out₁, ∃ Q ∈ P.2, Q.1 = "t" ∧ Q.2.priIndex = 2) ∧
      (∀ P ∈ out₂, ∀ Q ∈ P.2, Q.2.priIndex = 1) := by
  obtain ⟨out₁, h₁, ⟨P, hP, Q, hQ, hQ1, hQpri, _⟩, _⟩ :=
    single_node_reports_pinned [("t", w7entry)] "n1"
      [(⟨"t", 0, "S", 0, 0⟩ : PRow), (⟨"t", 4096, "S", 0, 0⟩ : PRow)] "t" w7entry
      (⟨2, 0, [], []⟩ : NsReport) rfl
      (by intro r hr; simp at hr; rcases hr with rfl | rfl; all_goals rfl)
      (by simp)
      (by decide)
  obtain ⟨out₂, h₂, _, hall⟩ :=
    single_node_reports_pinned [("t", w7entry)] "n1"
      [(⟨"t", 0, "S", 0, 0⟩ : PRow)] "t" w7entry (⟨1, 0, [], []⟩ : NsReport) rfl
      (by intro r hr; simp at hr; rw [hr])
      (by simp)
      (by decide)
  exact ⟨out₁, out₂, h₁, h₂, ⟨P, hP, Q, hQ, hQ1, hQpri⟩,
    fun P hP Q hQ => (hall P hP Q hQ).2.1⟩

/-- **C7.** (amended) A sync row whose partition id lies outside
`[0, 4096)` is logged but not inert: its counter and discrepancy updates
happen exactly as for any sync row; only the missing-partition structure
is protected — unchanged when `pid ≥ 4096` or `pid < -4096` (the
`IndexError` is swallowed), while `-4096 ≤ pid < 0` wraps around and
mutates entry `pid + 4096`. -/
theorem oob_pid_effect (nsInfo : List (String × NsEntry)) (ns : String) (e : NsEntry)
    (he : alook ns nsInfo = some e) (pid pindex objects : ℤ)
    (rep : NsReport) (marr : List (List ℤ)) (hlen : marr.length = 4096)
    (_hoob : ¬(0 ≤ pid ∧ pid < 4096)) :
    (tryS nsInfo ns pid pindex objects rep marr).1 = sBlockReport e pid pindex objects rep ∧
    (pid < -4096 ∨ 4096 ≤ pid →
      (tryS nsInfo ns pid pindex objects rep marr).2 = marr) ∧
    (-4096 ≤ pid → pid < 0 →
      (tryS nsInfo ns pid pindex objects rep marr).2 =
        marr.set (pid + 4096).toNat ((marr.getD (pid + 4096).toNat []).erase pindex)) := by
  have htry : tryS nsInfo ns pid pindex objects rep marr =
      (sBlockReport e pid pindex objects rep, removeStep marr pid pindex) := by
    unfold tryS
    rw [he]
  refine ⟨by rw [htry], ?_, ?_⟩
  · intro hfar
    rw [htry]
    show removeStep marr pid pindex = marr
    unfold removeStep
    rw [if_neg]
    rw [hlen]
    intro hx
    rcases hfar with hf | hf
    · omega
    · omega
  · intro hge hneg
    rw [htry]
    show removeStep marr pid pindex = _
    unfold removeStep
    rw [if_pos (by rw [hlen]; constructor <;> omega)]
    rw [hlen]
    rw [if_pos hneg]
    rfl

theorem oob_pid_effect_witness :
    ((tryS [("t", w7entry)] "t" 4096 0 0 emptyReport (List.replicate 4096 [])).1 =
      sBlockReport w7entry 4096 0 0 emptyReport ∧
    ((4096 : ℤ) < -4096 ∨ (4096 : ℤ) ≤ 4096 →
      (tryS [("t", w7entry)] "t" 4096 0 0 emptyReport (List.replicate 4096 [])).2 =
        List.replicate 4096 []) ∧
    (-4096 ≤ (4096 : ℤ) → (4096 : ℤ) < 0 →
      (tryS [("t", w7entry)] "t" 4096 0 0 emptyReport (List.replicate 4096 [])).2 =
        (List.replicate 4096 ([] : List ℤ)).set ((4096 : ℤ) + 4096).toNat
          (((List.replicate 4096 ([] : List ℤ)).getD ((4096 : ℤ) + 4096).toNat []).erase
            0))) ∧
    (sBlockReport w7entry 4096 0 0 emptyReport).priIndex = 1 :=
  ⟨oob_pid_effect [("t", w7entry)] "t" w7entry rfl 4096 0 0 emptyReport
      (List.replicate 4096 []) (by rw [List.length_replicate]) (by omega),
    by decide⟩

end AerospikeAdmin
